import Mathlib

/-!
Verification of the JSON-flattening pipeline of
`notebooks/database_population_and_querying.ipynb`.

The notebook turns a list of nested StatsBomb event records into a flat
table: `pd.json_normalize(events)`, a column rename replacing `.` by `_`,
a split of every column whose name contains `"location"` into `_x`/`_y`
columns via `df.apply(lambda x: x[col][i] if type(x[col]) == list else None)`,
removal of the original location columns, and removal of a fixed list of
non-tabular columns.  All of that is modelled below on explicit lists.
-/

mutual
/-- A JSON value as handled by the notebook (numbers modelled by `Int`). -/
inductive Json where
  | null : Json
  | bool : Bool → Json
  | num : Int → Json
  | str : String → Json
  | arr : List Json → Json
  | obj : JFields → Json
/-- The ordered field list of a JSON object. -/
inductive JFields where
  | nil : JFields
  | cons : String → Json → JFields → JFields
end

/-- Build an object field list from a list of key/value pairs. -/
def jf : List (String × Json) → JFields
  | [] => JFields.nil
  | (k, v) :: rest => JFields.cons k v (jf rest)

/-- A raw event is a JSON object: an ordered list of key/value fields. -/
abbrev RawEvent := JFields

/-- `True` exactly for the scalar JSON values (string, number, boolean, null). -/
def ScalarOK : Json → Bool
  | Json.arr _ => false
  | Json.obj _ => false
  | _ => true

/-- Scanner for Python `str.replace`: with skip counter `0` the next pattern
occurrence is sought; a positive counter passes over the remaining characters
of a match already emitted. -/
def replaceSkip (pat rep : List Char) : Nat → List Char → List Char
  | _, [] => []
  | k + 1, _ :: cs => replaceSkip pat rep k cs
  | 0, c :: cs =>
    if pat ≠ [] ∧ pat.isPrefixOf (c :: cs) then
      rep ++ replaceSkip pat rep (pat.length - 1) cs
    else
      c :: replaceSkip pat rep 0 cs

/-- Python `str.replace` on character lists: left-to-right, non-overlapping,
replacing every occurrence of `pat` by `rep`. -/
def replaceL (pat rep : List Char) (s : List Char) : List Char :=
  replaceSkip pat rep 0 s

/-- Python `in` on strings, as character lists: does `pat` occur in `s`? -/
def occursL (pat : List Char) : List Char → Bool
  | [] => pat.isEmpty
  | c :: cs => pat.isPrefixOf (c :: cs) || occursL pat cs

/-- Python `s.replace(pat, rep)` on `String`. -/
def pyReplace (s pat rep : String) : String := ⟨replaceL pat.data rep.data s.data⟩

/-- Python `pat in s` on `String`. -/
def pyContains (s pat : String) : Bool := occursL pat.data s.data

/-- Key-path join of `pd.json_normalize`: path segments joined by `"."`. -/
def joinKey (pre k : String) : String := if pre = "" then k else pre ++ "." ++ k

mutual
/-- The recursive walk of `pd.json_normalize` (pandas `nested_to_record`):
nested objects are expanded into dot-joined key paths, every other value
(scalars and arrays alike) is a leaf. -/
def normPairs : String → JFields → List (String × Json)
  | _, JFields.nil => []
  | pre, JFields.cons k v rest => normOne pre k v ++ normPairs pre rest
/-- Normalization of a single field: descend into an object, else emit a leaf. -/
def normOne : String → String → Json → List (String × Json)
  | pre, k, Json.obj fs => normPairs (joinKey pre k) fs
  | pre, k, v => [(joinKey pre k, v)]
end

/-- One Python-dict update step: overwrite the value of an existing key in
place, otherwise append the new key at the end. -/
def updKV (acc : List (String × Json)) (kv : String × Json) : List (String × Json) :=
  if acc.any (fun p => p.1 == kv.1) then
    acc.map (fun p => if p.1 == kv.1 then (p.1, kv.2) else p)
  else acc ++ [kv]

/-- The flattened record of one event, with Python-dict key semantics
(first-appearance order, later values overwrite earlier ones). -/
def canonRec (e : RawEvent) : List (String × Json) := (normPairs "" e).foldl updKV []

/-- The column rename of the notebook: `k.replace(".", "_")`. -/
def renameKey (k : String) : String := pyReplace k "." "_"

/-- The flattened record of one event after the column rename. -/
def renamedRec (e : RawEvent) : List (String × Json) :=
  (canonRec e).map (fun p => (renameKey p.1, p.2))

/-- A DataFrame: an ordered list of column names and rows of values aligned
with the columns. -/
structure Table where
  cols : List String
  rows : List (List Json)

/-- Well-formedness: every row has one value per column. -/
def Wf (t : Table) : Prop := ∀ row ∈ t.rows, row.length = t.cols.length

/-- Append a column name if it is not already present. -/
def addCol (cs : List String) (c : String) : List String :=
  if c ∈ cs then cs else cs ++ [c]

/-- The union of the key sets of all flattened records, in order of first
appearance: the column set produced by `pd.json_normalize`. -/
def unionCols (events : List RawEvent) : List String :=
  events.foldl (fun acc e => (canonRec e).foldl (fun a kv => addCol a kv.1) acc) []

/-- Lookup of a key in a flattened record; missing keys give `null`
(pandas backfills missing fields with NaN). -/
def getVal (rec : List (String × Json)) (k : String) : Json :=
  match rec.find? (fun p => p.1 == k) with
  | some p => p.2
  | none => Json.null

/-- `pd.json_normalize(events)`: the column union, and one row per event. -/
def buildTable (events : List RawEvent) : Table :=
  { cols := unionCols events
    rows := events.map (fun e => (unionCols events).map (fun c => getVal (canonRec e) c)) }

/-- The rename cell: every column name has `.` replaced by `_`. -/
def renameTable (t : Table) : Table :=
  { cols := t.cols.map renameKey, rows := t.rows }

/-- The `'location' in x` test selecting the columns to split. -/
def hasLoc (c : String) : Bool := pyContains c "location"

/-- The derived column name `col.replace("location", dim)`. -/
def dimName (col dim : String) : String := pyReplace col "location" dim

/-- Index of the first occurrence of a column name. -/
def idxOfS (c : String) : List String → Nat
  | [] => 0
  | k :: ks => if k = c then 0 else idxOfS c ks + 1

/-- Label lookup of a value in a row (first matching column). -/
def rowVal (cols : List String) (row : List Json) (c : String) : Json :=
  match (cols.zip row).find? (fun p => p.1 == c) with
  | some p => p.2
  | none => Json.null

/-- The lambda of the split cell, `x[col][i] if type(x[col]) == list else None`,
applied to one row.  `x[col]` on a duplicated column label yields a Series
(not a `list`), hence `None`; a missing label raises, modelled as `none`;
out-of-range indexing of the list raises, modelled as `none`. -/
def lambdaVal (cols : List String) (row : List Json) (col : String) (i : Nat) : Option Json :=
  match cols.count col with
  | 0 => none
  | 1 =>
    match rowVal cols row col with
    | Json.arr xs => xs.get? i
    | _ => some Json.null
  | _ + 2 => some Json.null

/-- Apply a fallible function to every element; any failure fails the whole
computation (an uncaught Python exception). -/
def mapO {α β : Type} (f : α → Option β) : List α → Option (List β)
  | [] => some []
  | a :: as =>
    match f a, mapO f as with
    | some b, some bs => some (b :: bs)
    | _, _ => none

/-- The column assignment `df[c] = vals`: overwrite an existing column in
place, otherwise append the new column at the end. -/
def setCol (t : Table) (c : String) (vals : List Json) : Table :=
  if c ∈ t.cols then
    { cols := t.cols
      rows := (t.rows.zip vals).map (fun rv => rv.1.set (idxOfS c t.cols) rv.2) }
  else
    { cols := t.cols ++ [c]
      rows := (t.rows.zip vals).map (fun rv => rv.1 ++ [rv.2]) }

/-- One assignment `df[col.replace("location", dim)] = df.apply(lambda ...)`. -/
def applyDim (t : Table) (col dim : String) (i : Nat) : Option Table :=
  match mapO (fun row => lambdaVal t.cols row col i) t.rows with
  | none => none
  | some vals => some (setCol t (dimName col dim) vals)

/-- The inner `for i, dimension in enumerate(["x", "y"])` loop for one column. -/
def splitCol (t : Table) (col : String) : Option Table :=
  match applyDim t col "x" 0 with
  | none => none
  | some t1 => applyDim t1 col "y" 1

/-- The outer `for col in location_columns` loop. -/
def runSplits : Table → List String → Option Table
  | t, [] => some t
  | t, c :: cs =>
    match splitCol t c with
    | none => none
    | some t' => runSplits t' cs

/-- The column-subsetting idiom `df[[c for c in df.columns if p c]]`. -/
def keepCols (t : Table) (p : String → Bool) : Table :=
  { cols := t.cols.filter p
    rows := t.rows.map (fun row => ((t.cols.zip row).filter (fun cv => p cv.1)).map Prod.snd) }

/-- The notebook's hard-coded `columns_to_remove` list. -/
def columns_to_remove : List String := ["tactics_lineup", "related_events", "shot_freeze_frame"]

/-- The normalized-and-renamed table: `pd.json_normalize(events)` followed by
the `.`-to-`_` column rename. -/
def normTable (events : List RawEvent) : Table := renameTable (buildTable events)

/-- `location_columns = [x for x in df.columns.values if 'location' in x]`. -/
def locColsOf (t : Table) : List String := t.cols.filter hasLoc

/-- The whole flattening pipeline of the notebook, parameterised (as in the
spec's `flatten(events, dropColumns)`) over the final drop list: normalize,
rename `.` to `_`, split every `location`-named column into `x`/`y` columns,
drop the original location columns, drop `dropColumns`.  `none` models an
uncaught exception. -/
def flatten (events : List RawEvent) (dropColumns : List String) : Option Table :=
  let t1 := normTable events
  let locCols := locColsOf t1
  match runSplits t1 locCols with
  | none => none
  | some t2 =>
    let t3 := keepCols t2 (fun c => !(locCols.contains c))
    some (keepCols t3 (fun c => !(dropColumns.contains c)))

/-- The keys of a flattened record. -/
def recKeys (rec : List (String × Json)) : List String := rec.map Prod.fst

/-- The value of row `n` at column `c` of a table (null when out of range). -/
def rowValAt (t : Table) (n : Nat) (c : String) : Json :=
  match t.rows.get? n with
  | some row => rowVal t.cols row c
  | none => Json.null

/-- The single event of the spec's end-to-end scenario:
`{"type": {"name": "Pass"}, "pass": {"end_location": [10, 20]}}`. -/
def passEvent : RawEvent :=
  jf [("type", Json.obj (jf [("name", Json.str "Pass")])),
      ("pass", Json.obj (jf [("end_location", Json.arr [Json.num 10, Json.num 20])]))]

/-- An event whose literal field `pass_end_location` collides, after the
`.`-to-`_` rename, with the column flattened from `pass.end_location`:
`{"pass_end_location": null, "pass": {"end_location": [60, 40]}}`. -/
def dupLabelEvent : RawEvent :=
  jf [("pass_end_location", Json.null),
      ("pass", Json.obj (jf [("end_location", Json.arr [Json.num 60, Json.num 40])]))]

/-- An event with an array field whose name does not contain `"location"`:
`{"foo": [1, 2, 3]}`. -/
def arrayFieldEvent : RawEvent := jf [("foo", Json.arr [Json.num 1, Json.num 2, Json.num 3])]

/-- An event whose coordinate field holds a three-element list:
`{"pass": {"end_location": [1, 2, 3]}}`. -/
def threeElemEvent : RawEvent :=
  jf [("pass", Json.obj (jf [("end_location", Json.arr [Json.num 1, Json.num 2, Json.num 3])]))]

/-- `{"shot": {"xg": 5}}`. -/
def shotXgEvent : RawEvent := jf [("shot", Json.obj (jf [("xg", Json.num 5)]))]

/-- `{"shot": {"locationg": [1, 2]}}`: a location-named column whose derived
`x` name `shot_xg` collides with the column flattened from `shot.xg`. -/
def shotLocationgEvent : RawEvent :=
  jf [("shot", Json.obj (jf [("locationg", Json.arr [Json.num 1, Json.num 2])]))]

/-- `{"tactics": {"lineup": {"player": 7}}}`: nested contents under a name
listed in `dropColumns`. -/
def tacticsNestedEvent : RawEvent :=
  jf [("tactics", Json.obj (jf [("lineup", Json.obj (jf [("player", Json.num 7)]))]))]

/-- `{"location_note": "hi"}`: a scalar field whose name contains `"location"`. -/
def locationNoteEvent : RawEvent := jf [("location_note", Json.str "hi")]

/-- `{"pass": {"end_location": [60, 40]}}`. -/
def passEvent60 : RawEvent :=
  jf [("pass", Json.obj (jf [("end_location", Json.arr [Json.num 60, Json.num 40])]))]

/-- `{"pass": {"end_location": "bad"}}`: a coordinate field that is not a list. -/
def passEventStr : RawEvent :=
  jf [("pass", Json.obj (jf [("end_location", Json.str "bad")]))]

/-- `{"foo": 1}`: an event without a `shot.xg` field. -/
def shotOtherEvent : RawEvent := jf [("foo", Json.num 1)]

/-- `{"location": [1, 2, 3]}`: a three-element coordinate list. -/
def locationTripleEvent : RawEvent := jf [("location", Json.arr [Json.num 1, Json.num 2, Json.num 3])]

/-- An event whose literal field `a_location` holds the empty list while the
nested field `a.location` renames to the same label, duplicating the
`a_location` column: `{"a_location": [], "a": {"location": []}}`. -/
def dupShortEvent : RawEvent :=
  jf [("a_location", Json.arr []),
      ("a", Json.obj (jf [("location", Json.arr [])]))]

/-- Invariant of the split loop: every table cell in a column whose name
lacks `"location"` is a scalar unless its column is named in the drop list,
and every array cell in a `location`-named column has scalar entries at
indices 0 and 1. -/
def ScalarInv (d : List String) (t : Table) : Prop :=
  ∀ (j : Nat) (k : String) (nn : Nat) (row : List Json) (v : Json),
    t.cols.get? j = some k → t.rows.get? nn = some row → row.get? j = some v →
    (hasLoc k = false → k ∈ d ∨ ScalarOK v = true) ∧
    (hasLoc k = true → ∀ xs, v = Json.arr xs →
      ScalarOK (xs.getD 0 Json.null) = true ∧ ScalarOK (xs.getD 1 Json.null) = true)

/-! ### Lemmas about the Python string primitives -/

theorem replaceSkip_eq_drop (pat rep : List Char) :
    ∀ (cs : List Char) (k : Nat), replaceSkip pat rep k cs = replaceSkip pat rep 0 (cs.drop k) := by
  intro cs
  induction cs with
  | nil => intro k; cases k <;> rfl
  | cons c cs ih =>
    intro k
    cases k with
    | zero => rfl
    | succ k =>
      show replaceSkip pat rep k cs = _
      rw [List.drop_succ_cons]
      exact ih k

theorem replaceL_cons (pat rep : List Char) (c : Char) (cs : List Char) :
    replaceL pat rep (c :: cs) =
      if pat ≠ [] ∧ pat.isPrefixOf (c :: cs) then
        rep ++ replaceL pat rep (cs.drop (pat.length - 1))
      else c :: replaceL pat rep cs := by
  have h0 : replaceSkip pat rep 0 (c :: cs) =
      if pat ≠ [] ∧ pat.isPrefixOf (c :: cs) then
        rep ++ replaceSkip pat rep (pat.length - 1) cs
      else c :: replaceSkip pat rep 0 cs := rfl
  simp only [replaceL, h0, replaceSkip_eq_drop pat rep cs (pat.length - 1)]

theorem replaceL_eq_nil (pat rep : List Char) (hr : rep ≠ []) (s : List Char)
    (h : replaceL pat rep s = []) : s = [] := by
  cases s with
  | nil => rfl
  | cons c cs =>
    rw [replaceL_cons] at h
    split at h
    · rcases List.append_eq_nil.mp h with ⟨h1, h2⟩
      exact absurd h1 hr
    · exact absurd h (by simp)

theorem occursL_decomp (pat : List Char) (hp : pat ≠ []) :
    ∀ s : List Char, occursL pat s = true →
      ∃ a b, s = a ++ pat ++ b ∧
        ∀ rep, replaceL pat rep s = a ++ rep ++ replaceL pat rep b := by
  intro s
  induction s with
  | nil =>
    intro h
    rw [occursL, List.isEmpty_iff] at h
    exact absurd h hp
  | cons c cs ih =>
    intro h
    by_cases hpre : pat.isPrefixOf (c :: cs) = true
    · obtain ⟨t, ht⟩ := List.isPrefixOf_iff_prefix.mp hpre
      refine ⟨[], t, by simpa using ht.symm, ?_⟩
      intro rep
      have hdrop : cs.drop (pat.length - 1) = t := by
        obtain ⟨p0, pt, rfl⟩ : ∃ p0 pt, pat = p0 :: pt := by
          cases pat with
          | nil => exact absurd rfl hp
          | cons p0 pt => exact ⟨p0, pt, rfl⟩
        have : cs = pt ++ t := by
          have := ht
          simp only [List.cons_append, List.cons.injEq] at this
          exact this.2.symm
        simp [this]
      rw [replaceL_cons, if_pos ⟨hp, hpre⟩, hdrop]
      simp
    · rw [occursL] at h
      rcases Bool.or_eq_true_iff.mp h with h1 | h2
      · exact absurd h1 hpre
      · obtain ⟨a, b, hs, hrep⟩ := ih h2
        refine ⟨c :: a, b, by simp [hs], ?_⟩
        intro rep
        rw [replaceL_cons, if_neg (by simp [hpre]), hrep rep]
        simp

theorem mem_replaceL (pat : List Char) (hp : pat ≠ []) (r0 : Char) (s : List Char)
    (h : occursL pat s = true) : r0 ∈ replaceL pat [r0] s := by
  obtain ⟨a, b, _, hrep⟩ := occursL_decomp pat hp s h
  rw [hrep [r0]]
  simp

theorem replaceL_single_ne (pat : List Char) (hp : pat ≠ []) (r r' : Char) (hrr : r ≠ r')
    (s : List Char) (h : occursL pat s = true) :
    replaceL pat [r] s ≠ replaceL pat [r'] s := by
  obtain ⟨a, b, _, hrep⟩ := occursL_decomp pat hp s h
  rw [hrep [r], hrep [r']]
  intro he
  simp only [List.append_assoc, List.singleton_append] at he
  have := List.append_cancel_left he
  simp only [List.cons.injEq] at this
  exact hrr this.1

theorem isPrefixOf_replaceL (p0 : Char) (pt : List Char) (r0 : Char) :
    ∀ (cs q : List Char), (∀ ch ∈ q, ch ≠ r0) →
      q.isPrefixOf (replaceL (p0 :: pt) [r0] cs) = true → q.isPrefixOf cs = true := by
  intro cs
  induction cs with
  | nil =>
    intro q hq h
    simpa [replaceL, replaceSkip] using h
  | cons c cs ih =>
    intro q hq h
    rw [replaceL_cons] at h
    split at h
    · cases q with
      | nil => simp [List.isPrefixOf]
      | cons a q' =>
        rw [List.isPrefixOf_iff_prefix] at h
        simp only [List.singleton_append, List.cons_prefix_cons] at h
        exact absurd h.1 (hq a (by simp))
    · cases q with
      | nil => simp [List.isPrefixOf]
      | cons a q' =>
        rw [List.isPrefixOf_iff_prefix, List.cons_prefix_cons] at h
        rw [List.isPrefixOf_iff_prefix, List.cons_prefix_cons]
        refine ⟨h.1, ?_⟩
        rw [← List.isPrefixOf_iff_prefix] at h ⊢
        exact ih q' (fun ch hch => hq ch (by simp [hch])) h.2

theorem occursL_replaceL (p0 : Char) (pt : List Char) (r0 : Char)
    (h0 : r0 ≠ p0) (h1 : ∀ ch ∈ pt, ch ≠ r0) :
    ∀ (n : Nat) (s : List Char), s.length ≤ n →
      occursL (p0 :: pt) (replaceL (p0 :: pt) [r0] s) = false := by
  intro n
  induction n with
  | zero =>
    intro s hs
    have : s = [] := List.length_eq_zero.mp (Nat.le_zero.mp hs)
    subst this
    rfl
  | succ n ih =>
    intro s hs
    cases s with
    | nil => rfl
    | cons c cs =>
      rw [replaceL_cons]
      split
      · next hcond =>
        show occursL (p0 :: pt) ([r0] ++ replaceL (p0 :: pt) [r0] (cs.drop ((p0 :: pt).length - 1))) = false
        rw [List.singleton_append, occursL, Bool.or_eq_false_iff]
        constructor
        · rw [Bool.eq_false_iff]
          intro hpre
          rw [List.isPrefixOf_iff_prefix, List.cons_prefix_cons] at hpre
          exact h0 hpre.1.symm
        · exact ih _ (by
            have : (cs.drop ((p0 :: pt).length - 1)).length ≤ cs.length := by
              rw [List.length_drop]; omega
            simp only [List.length_cons] at hs
            omega)
      · next hcond =>
        rw [occursL, Bool.or_eq_false_iff]
        constructor
        · rw [Bool.eq_false_iff]
          intro hpre
          rw [List.isPrefixOf_iff_prefix, List.cons_prefix_cons] at hpre
          apply hcond
          refine ⟨by simp, ?_⟩
          rw [List.isPrefixOf_iff_prefix, List.cons_prefix_cons]
          refine ⟨hpre.1, ?_⟩
          rw [← List.isPrefixOf_iff_prefix]
          exact isPrefixOf_replaceL p0 pt r0 cs pt h1
            (by rw [List.isPrefixOf_iff_prefix]; exact hpre.2)
        · exact ih cs (by simp only [List.length_cons] at hs; omega)

/-! ### Lemmas about location-column names -/

theorem hasLoc_iff (c : String) : hasLoc c = occursL "location".data c.data := rfl

theorem data_dimName (c dim : String) :
    (dimName c dim).data = replaceL "location".data dim.data c.data := rfl

theorem hasLoc_dimName (c : String) (h : hasLoc c = true) (dim : String)
    (hdim : dim = "x" ∨ dim = "y") : hasLoc (dimName c dim) = false := by
  have hd : ∃ r0 : Char, dim.data = [r0] ∧ r0 ≠ 'l' ∧ ∀ ch ∈ "ocation".data, ch ≠ r0 := by
    rcases hdim with h | h <;> subst h
    · exact ⟨'x', rfl, by decide, by decide⟩
    · exact ⟨'y', rfl, by decide, by decide⟩
  obtain ⟨r0, hdata, hr1, hr2⟩ := hd
  rw [hasLoc_iff, data_dimName, hdata]
  exact occursL_replaceL 'l' "ocation".data r0 hr1 hr2 c.data.length c.data le_rfl

theorem dimName_ne_locName (c c' : String) (h : hasLoc c = true) (h' : hasLoc c' = true)
    (dim : String) (hdim : dim = "x" ∨ dim = "y") : dimName c dim ≠ c' := by
  intro he
  have hf := hasLoc_dimName c h dim hdim
  rw [he, h'] at hf
  exact Bool.noConfusion hf

theorem dimName_x_ne_y (c : String) (h : hasLoc c = true) : dimName c "x" ≠ dimName c "y" := by
  intro he
  have hdata : (dimName c "x").data = (dimName c "y").data := by rw [he]
  rw [data_dimName, data_dimName] at hdata
  exact replaceL_single_ne "location".data (by decide) 'x' 'y' (by decide) c.data h hdata

theorem replace_single_inversion (pat : List Char) (hp : pat ≠ []) (r0 : Char)
    (T : List Char) (m : Nat) (h1 : T.length = m + 1)
    (h2 : ∀ k < m + 1, T.get? k = some r0 → k = m) :
    ∀ s, occursL pat s = true → replaceL pat [r0] s = T → s = T.take m ++ pat := by
  intro s hs hrepl
  obtain ⟨a, b, hdec, hrep⟩ := occursL_decomp pat hp s hs
  have heq : a ++ ([r0] ++ replaceL pat [r0] b) = T := by
    rw [← List.append_assoc, ← hrep [r0], hrepl]
  have hlen : a.length + (1 + (replaceL pat [r0] b).length) = m + 1 := by
    have := congrArg List.length heq
    simp only [List.length_append, List.singleton_append, List.length_cons, h1] at this
    omega
  have hget : T.get? a.length = some r0 := by
    rw [← heq, List.get?_append_right le_rfl]
    simp
  have ham : a.length = m := h2 a.length (by omega) hget
  have hR : (replaceL pat [r0] b).length = 0 := by omega
  have hb : b = [] :=
    replaceL_eq_nil pat [r0] (by simp) b (List.length_eq_zero.mp hR)
  have ha : a = T.take m := by
    have := @List.take_left' _ a ([r0] ++ replaceL pat [r0] b) m ham
    rw [heq] at this
    exact this.symm
  rw [hdec, hb, ha]
  simp

theorem dimName_x_inv (s : String) (hs : hasLoc s = true)
    (h : dimName s "x" = "pass_end_x") : s = "pass_end_location" := by
  have hd : s.data = "pass_end_x".data.take 9 ++ "location".data := by
    refine replace_single_inversion "location".data (by decide) 'x' "pass_end_x".data 9
      (by decide) (by decide) s.data hs ?_
    rw [← data_dimName, h]
  have : s.data = "pass_end_location".data := by rw [hd]; decide
  exact congrArg String.mk this

theorem dimName_y_inv (s : String) (hs : hasLoc s = true)
    (h : dimName s "y" = "pass_end_y") : s = "pass_end_location" := by
  have hd : s.data = "pass_end_y".data.take 9 ++ "location".data := by
    refine replace_single_inversion "location".data (by decide) 'y' "pass_end_y".data 9
      (by decide) (by decide) s.data hs ?_
    rw [← data_dimName, h]
  have : s.data = "pass_end_location".data := by rw [hd]; decide
  exact congrArg String.mk this

theorem dimName_y_ne_pass_end_x (s : String) (hs : hasLoc s = true) :
    dimName s "y" ≠ "pass_end_x" := by
  intro h
  have hy : 'y' ∈ replaceL "location".data ['y'] s.data :=
    mem_replaceL "location".data (by decide) 'y' s.data hs
  exact absurd hy (by rw [show replaceL "location".data ['y'] s.data = (dimName s "y").data from rfl, h]; decide)

theorem dimName_x_ne_pass_end_y (s : String) (hs : hasLoc s = true) :
    dimName s "x" ≠ "pass_end_y" := by
  intro h
  have hx : 'x' ∈ replaceL "location".data ['x'] s.data :=
    mem_replaceL "location".data (by decide) 'x' s.data hs
  exact absurd hx (by rw [show replaceL "location".data ['x'] s.data = (dimName s "x").data from rfl, h]; decide)

/-! ### Lemmas about flattened records and the column union -/

theorem any_key_iff (acc : List (String × Json)) (k : String) :
    (acc.any (fun p => p.1 == k) = true) ↔ k ∈ recKeys acc := by
  simp only [List.any_eq_true, beq_iff_eq, recKeys, List.mem_map]

theorem recKeys_updKV_mem (acc : List (String × Json)) (kv : String × Json)
    (h : kv.1 ∈ recKeys acc) : recKeys (updKV acc kv) = recKeys acc := by
  rw [updKV, if_pos ((any_key_iff acc kv.1).mpr h)]
  simp only [recKeys, List.map_map]
  apply List.map_congr_left
  intro p _
  simp only [Function.comp_apply]
  split <;> rfl

theorem recKeys_updKV_not_mem (acc : List (String × Json)) (kv : String × Json)
    (h : kv.1 ∉ recKeys acc) : recKeys (updKV acc kv) = recKeys acc ++ [kv.1] := by
  rw [updKV, if_neg (fun hc => h ((any_key_iff acc kv.1).mp hc))]
  simp [recKeys]

theorem nodup_recKeys_updKV (acc : List (String × Json)) (kv : String × Json)
    (h : (recKeys acc).Nodup) : (recKeys (updKV acc kv)).Nodup := by
  by_cases hm : kv.1 ∈ recKeys acc
  · rw [recKeys_updKV_mem acc kv hm]; exact h
  · rw [recKeys_updKV_not_mem acc kv hm, ← List.concat_eq_append]
    exact List.Nodup.concat hm h

theorem nodup_foldl_updKV (l : List (String × Json)) :
    ∀ acc : List (String × Json), (recKeys acc).Nodup → (recKeys (l.foldl updKV acc)).Nodup := by
  induction l with
  | nil => intro acc h; exact h
  | cons kv l ih => intro acc h; exact ih (updKV acc kv) (nodup_recKeys_updKV acc kv h)

theorem nodup_canonRec (e : RawEvent) : (recKeys (canonRec e)).Nodup :=
  nodup_foldl_updKV (normPairs "" e) [] (by simp [recKeys])

theorem getVal_mem_of_nodup (rec : List (String × Json)) (hnd : (recKeys rec).Nodup)
    (k : String) (v : Json) (hm : (k, v) ∈ rec) : getVal rec k = v := by
  induction rec with
  | nil => cases hm
  | cons p rec ih =>
    rw [recKeys, List.map_cons, List.nodup_cons] at hnd
    rcases List.mem_cons.mp hm with he | hm2
    · rw [getVal, List.find?_cons, ← he]
      simp
    · have hk : k ∈ recKeys rec := by
        simp only [recKeys, List.mem_map]
        exact ⟨(k, v), hm2, rfl⟩
      have hne : (p.1 == k) = false := by
        rw [beq_eq_false_iff_ne]
        intro he
        exact hnd.1 (he ▸ hk)
      rw [getVal, List.find?_cons, hne]
      exact ih hnd.2 hm2

theorem getVal_not_mem (rec : List (String × Json)) (k : String)
    (h : k ∉ recKeys rec) : getVal rec k = Json.null := by
  have hf : rec.find? (fun p => p.1 == k) = none := by
    rw [List.find?_eq_none]
    intro p hp he
    rw [beq_iff_eq] at he
    exact h (by simp only [recKeys, List.mem_map]; exact ⟨p, hp, he⟩)
  rw [getVal, hf]

theorem getVal_mem_or_null (rec : List (String × Json)) (k : String) :
    (k, getVal rec k) ∈ rec ∨ getVal rec k = Json.null := by
  rw [getVal]
  cases hf : rec.find? (fun p => p.1 == k) with
  | none => exact Or.inr rfl
  | some p =>
    left
    have hm := List.mem_of_find?_eq_some hf
    have hp := List.find?_some hf
    rw [beq_iff_eq] at hp
    rw [← hp]
    exact hm

theorem mem_addCol (cs : List String) (c a : String) :
    a ∈ addCol cs c ↔ a ∈ cs ∨ a = c := by
  rw [addCol]
  split
  · next h =>
    constructor
    · exact Or.inl
    · rintro (ha | rfl)
      · exact ha
      · exact h
  · simp

theorem nodup_addCol (cs : List String) (c : String) (h : cs.Nodup) : (addCol cs c).Nodup := by
  rw [addCol]
  split
  · exact h
  · next hc =>
    rw [← List.concat_eq_append]
    exact List.Nodup.concat hc h

theorem mem_foldl_addCol (l : List (String × Json)) :
    ∀ (acc : List String) (a : String),
      (a ∈ l.foldl (fun cs kv => addCol cs kv.1) acc) ↔ a ∈ acc ∨ a ∈ recKeys l := by
  induction l with
  | nil => intro acc a; simp [recKeys]
  | cons kv l ih =>
    intro acc a
    rw [List.foldl_cons, ih (addCol acc kv.1) a, mem_addCol]
    simp only [recKeys, List.map_cons, List.mem_cons]
    tauto

theorem nodup_foldl_addCol (l : List (String × Json)) :
    ∀ acc : List String, acc.Nodup → (l.foldl (fun cs kv => addCol cs kv.1) acc).Nodup := by
  induction l with
  | nil => intro acc h; exact h
  | cons kv l ih => intro acc h; exact ih (addCol acc kv.1) (nodup_addCol acc kv.1 h)

theorem mem_unionCols_aux (evs : List RawEvent) :
    ∀ (acc : List String) (a : String),
      (a ∈ evs.foldl (fun acc e => (canonRec e).foldl (fun cs kv => addCol cs kv.1) acc) acc) ↔
        a ∈ acc ∨ ∃ e ∈ evs, a ∈ recKeys (canonRec e) := by
  induction evs with
  | nil => intro acc a; simp
  | cons e evs ih =>
    intro acc a
    rw [List.foldl_cons, ih, mem_foldl_addCol]
    simp only [List.mem_cons]
    constructor
    · rintro ((h | h) | ⟨e2, h2, h3⟩)
      · exact Or.inl h
      · exact Or.inr ⟨e, Or.inl rfl, h⟩
      · exact Or.inr ⟨e2, Or.inr h2, h3⟩
    · rintro (h | ⟨e2, (rfl | h2), h3⟩)
      · exact Or.inl (Or.inl h)
      · exact Or.inl (Or.inr h3)
      · exact Or.inr ⟨e2, h2, h3⟩

theorem mem_unionCols (events : List RawEvent) (a : String) :
    a ∈ unionCols events ↔ ∃ e ∈ events, a ∈ recKeys (canonRec e) := by
  rw [unionCols, mem_unionCols_aux]
  simp

theorem nodup_unionCols (events : List RawEvent) : (unionCols events).Nodup := by
  rw [unionCols]
  have : ∀ (evs : List RawEvent) (acc : List String), acc.Nodup →
      (evs.foldl (fun acc e => (canonRec e).foldl (fun cs kv => addCol cs kv.1) acc) acc).Nodup := by
    intro evs
    induction evs with
    | nil => intro acc h; exact h
    | cons e evs ih => intro acc h; exact ih _ (nodup_foldl_addCol (canonRec e) acc h)
  exact this events [] List.nodup_nil

theorem count_map_one {α : Type} [DecidableEq α] (f : α → String) (l : List α) (b : String)
    (hnd : l.Nodup) (h : (l.map f).count b = 1) :
    ∃ a, a ∈ l ∧ f a = b ∧ ∀ a2 ∈ l, f a2 = b → a2 = a := by
  induction l with
  | nil => simp at h
  | cons x l ih =>
    rw [List.map_cons, List.count_cons] at h
    rw [List.nodup_cons] at hnd
    by_cases hx : f x = b
    · have hc0 : (l.map f).count b = 0 := by
        rw [if_pos (by exact beq_iff_eq.mpr hx)] at h
        omega
      have hnb : b ∉ l.map f := List.count_eq_zero.mp hc0
      refine ⟨x, List.mem_cons_self x l, hx, ?_⟩
      intro a2 ha2 hfa2
      rcases List.mem_cons.mp ha2 with rfl | hmem
      · rfl
      · exact absurd (hfa2 ▸ List.mem_map_of_mem f hmem) hnb
    · rw [if_neg (by simpa using hx)] at h
      simp only [Nat.add_zero] at h
      obtain ⟨a, ha, hfa, hu⟩ := ih hnd.2 h
      refine ⟨a, List.mem_cons_of_mem x ha, hfa, ?_⟩
      intro a2 ha2 hfa2
      rcases List.mem_cons.mp ha2 with rfl | hmem
      · exact absurd hfa2 hx
      · exact hu a2 hmem hfa2

/-! ### Lemmas about the normalized-and-renamed table -/

theorem normTable_cols (events : List RawEvent) :
    (normTable events).cols = (unionCols events).map renameKey := rfl

theorem normTable_rows_get (events : List RawEvent) (n : Nat) (e : RawEvent)
    (hn : events.get? n = some e) :
    (normTable events).rows.get? n =
      some ((unionCols events).map (fun c => getVal (canonRec e) c)) := by
  show (events.map (fun e => (unionCols events).map (fun c => getVal (canonRec e) c))).get? n = _
  rw [List.get?_map, hn]
  rfl

theorem normTable_rows_length (events : List RawEvent) :
    (normTable events).rows.length = events.length := by
  show (events.map _).length = _
  rw [List.length_map]

theorem normTable_wf (events : List RawEvent) : Wf (normTable events) := by
  intro row hrow
  have hrow2 : row ∈ events.map (fun e => (unionCols events).map (fun c => getVal (canonRec e) c)) := hrow
  obtain ⟨e, _, he⟩ := List.mem_map.mp hrow2
  rw [← he, List.length_map, normTable_cols, List.length_map]

theorem getVal_renamedRec (e : RawEvent) (p : String) :
    getVal (renamedRec e) p =
      match (canonRec e).find? (fun pr => renameKey pr.1 == p) with
      | some pr => pr.2
      | none => Json.null := by
  rw [getVal, renamedRec, List.find?_map]
  have hpred : ((fun q : String × Json => q.1 == p) ∘ fun pr : String × Json => (renameKey pr.1, pr.2)) =
      (fun pr : String × Json => renameKey pr.1 == p) := rfl
  rw [hpred]
  cases (canonRec e).find? (fun pr => renameKey pr.1 == p) with
  | none => rfl
  | some pr => rfl

theorem rowVal_normTable (events : List RawEvent) (n : Nat) (e : RawEvent)
    (hn : events.get? n = some e) (p : String)
    (hcount : (normTable events).cols.count p = 1) (row : List Json)
    (hrow : (normTable events).rows.get? n = some row) :
    rowVal (normTable events).cols row p = getVal (renamedRec e) p := by
  have hrow2 : row = (unionCols events).map (fun c => getVal (canonRec e) c) := by
    have h2 := normTable_rows_get events n e hn
    rw [hrow] at h2
    exact Option.some.inj h2
  have hzip : (normTable events).cols.zip row =
      (unionCols events).map (fun k => (renameKey k, getVal (canonRec e) k)) := by
    rw [normTable_cols, hrow2, List.zip_map']
  obtain ⟨k0, hk0mem, hk0eq, hk0uniq⟩ :=
    count_map_one renameKey (unionCols events) p (nodup_unionCols events)
      (by rw [← normTable_cols]; exact hcount)
  have hfind : (unionCols events).find? (fun k => renameKey k == p) = some k0 := by
    cases hfu : (unionCols events).find? (fun k => renameKey k == p) with
    | none =>
      exfalso
      exact (List.find?_eq_none.mp hfu k0 hk0mem) (beq_iff_eq.mpr hk0eq)
    | some k2 =>
      have h1 := List.mem_of_find?_eq_some hfu
      have h2 := List.find?_some hfu
      rw [beq_iff_eq] at h2
      rw [hk0uniq k2 h1 h2]
  have hLHS : rowVal (normTable events).cols row p = getVal (canonRec e) k0 := by
    rw [rowVal, hzip, List.find?_map]
    have hpred : ((fun q : String × Json => q.1 == p) ∘ fun k : String => (renameKey k, getVal (canonRec e) k)) =
        (fun k : String => renameKey k == p) := rfl
    rw [hpred, hfind]
    rfl
  rw [hLHS, getVal_renamedRec]
  have hmemE : e ∈ events := List.get?_mem hn
  cases hf : (canonRec e).find? (fun pr => renameKey pr.1 == p) with
  | none =>
    have hnm : k0 ∉ recKeys (canonRec e) := by
      intro hk
      obtain ⟨pr, hpr, hpr1⟩ := List.mem_map.mp hk
      exact (List.find?_eq_none.mp hf pr hpr) (beq_iff_eq.mpr (by rw [hpr1, hk0eq]))
    rw [getVal_not_mem (canonRec e) k0 hnm]
  | some pr =>
    have h1 := List.mem_of_find?_eq_some hf
    have h2 := List.find?_some hf
    rw [beq_iff_eq] at h2
    have hk0 : pr.1 = k0 := by
      apply hk0uniq pr.1 _ h2
      rw [mem_unionCols]
      exact ⟨e, hmemE, List.mem_map.mpr ⟨pr, h1, rfl⟩⟩
    rw [← hk0]
    exact getVal_mem_of_nodup (canonRec e) (nodup_canonRec e) pr.1 pr.2 (by rw [Prod.mk.eta]; exact h1)

/-! ### Lemmas about rows, columns and single-column assignment -/

theorem mapO_length {α β : Type} (f : α → Option β) :
    ∀ (l : List α) (l2 : List β), mapO f l = some l2 → l2.length = l.length := by
  intro l
  induction l with
  | nil => intro l2 h; cases (Option.some.inj h); rfl
  | cons a as ih =>
    intro l2 h
    rw [mapO] at h
    cases hfa : f a with
    | none => rw [hfa] at h; cases h
    | some b =>
      rw [hfa] at h
      cases hma : mapO f as with
      | none => rw [hma] at h; cases h
      | some bs =>
        rw [hma] at h
        cases (Option.some.inj h)
        simp only [List.length_cons, ih bs hma]

theorem mapO_get {α β : Type} (f : α → Option β) :
    ∀ (l : List α) (l2 : List β), mapO f l = some l2 → ∀ (n : Nat) (a : α), l.get? n = some a →
      ∃ b, f a = some b ∧ l2.get? n = some b := by
  intro l
  induction l with
  | nil => intro l2 h n a ha; cases ha
  | cons x xs ih =>
    intro l2 h n a ha
    rw [mapO] at h
    cases hfa : f x with
    | none => rw [hfa] at h; cases h
    | some b =>
      rw [hfa] at h
      cases hma : mapO f xs with
      | none => rw [hma] at h; cases h
      | some bs =>
        rw [hma] at h
        cases (Option.some.inj h)
        cases n with
        | zero =>
          cases Option.some.inj ha
          exact ⟨b, hfa, rfl⟩
        | succ n => exact ih bs hma n a ha

theorem mapO_eq_none {α β : Type} (f : α → Option β) :
    ∀ (l : List α) (n : Nat) (a : α), l.get? n = some a → f a = none → mapO f l = none := by
  intro l
  induction l with
  | nil => intro n a ha; cases ha
  | cons x xs ih =>
    intro n a ha hfa
    cases n with
    | zero =>
      cases Option.some.inj ha
      rw [mapO, hfa]
    | succ n =>
      rw [mapO, ih n a ha hfa]
      cases f x <;> rfl

theorem idxOfS_spec (c : String) :
    ∀ cols : List String, c ∈ cols →
      cols.get? (idxOfS c cols) = some c ∧ idxOfS c cols < cols.length := by
  intro cols
  induction cols with
  | nil => intro h; cases h
  | cons k ks ih =>
    intro h
    rw [idxOfS]
    split
    · next he => exact ⟨by simp [he], Nat.succ_pos _⟩
    · next he =>
      have hm : c ∈ ks := by
        rcases List.mem_cons.mp h with rfl | hm
        · exact absurd rfl he
        · exact hm
      obtain ⟨h1, h2⟩ := ih hm
      exact ⟨h1, Nat.succ_lt_succ h2⟩

theorem idxOfS_append_left (c : String) :
    ∀ (cols ext : List String), c ∈ cols → idxOfS c (cols ++ ext) = idxOfS c cols := by
  intro cols ext
  induction cols with
  | nil => intro h; cases h
  | cons k ks ih =>
    intro h
    rw [List.cons_append, idxOfS, idxOfS]
    split
    · rfl
    · next he =>
      have hm : c ∈ ks := by
        rcases List.mem_cons.mp h with rfl | hm
        · exact absurd rfl he
        · exact hm
      rw [ih hm]

theorem idxOfS_append_self (c : String) :
    ∀ cols : List String, c ∉ cols → idxOfS c (cols ++ [c]) = cols.length := by
  intro cols
  induction cols with
  | nil => intro _; simp [idxOfS]
  | cons k ks ih =>
    intro h
    rw [List.cons_append, idxOfS]
    split
    · next he => exact absurd (he ▸ List.mem_cons_self k ks) (he ▸ h)
    · rw [ih (fun hm => h (List.mem_cons_of_mem k hm))]
      rfl

theorem rowVal_not_mem_cols (cols : List String) (row : List Json) (c : String)
    (hc : c ∉ cols) : rowVal cols row c = Json.null := by
  have hf : (cols.zip row).find? (fun p => p.1 == c) = none := by
    rw [List.find?_eq_none]
    intro p hp he
    rw [beq_iff_eq] at he
    exact hc (he ▸ (List.mem_zip hp).1)
  rw [rowVal, hf]

theorem rowVal_pos (c : String) :
    ∀ (cols : List String) (row : List Json), row.length = cols.length → c ∈ cols →
      row.get? (idxOfS c cols) = some (rowVal cols row c) := by
  intro cols
  induction cols with
  | nil => intro row _ h; cases h
  | cons k ks ih =>
    intro row hlen hc
    cases row with
    | nil => simp at hlen
    | cons v vs =>
      rw [idxOfS]
      split
      · next he =>
        have hv : rowVal (k :: ks) (v :: vs) c = v := by
          rw [rowVal, List.zip_cons_cons, List.find?_cons]
          have hb : ((k, v).1 == c) = true := beq_iff_eq.mpr he
          rw [hb]
        rw [hv]
        rfl
      · next he =>
        have hm : c ∈ ks := by
          rcases List.mem_cons.mp hc with rfl | hm
          · exact absurd rfl he
          · exact hm
        have : rowVal (k :: ks) (v :: vs) c = rowVal ks vs c := by
          rw [rowVal, List.zip_cons_cons, List.find?_cons]
          have : ((k, v).1 == c) = false := beq_eq_false_iff_ne.mpr he
          rw [this, rowVal]
        rw [this]
        exact ih vs (by simpa using hlen) hm

theorem setCol_cols (t : Table) (c : String) (vals : List Json) :
    (setCol t c vals).cols = if c ∈ t.cols then t.cols else t.cols ++ [c] := by
  rw [setCol]
  split <;> rfl

theorem get?_zip_some {α β : Type} :
    ∀ (l1 : List α) (l2 : List β) (n : Nat) (a : α) (b : β),
      l1.get? n = some a → l2.get? n = some b → (l1.zip l2).get? n = some (a, b) := by
  intro l1
  induction l1 with
  | nil => intro l2 n a b h1 h2; cases h1
  | cons x xs ih =>
    intro l2 n a b h1 h2
    cases l2 with
    | nil => cases h2
    | cons y ys =>
      cases n with
      | zero =>
        cases Option.some.inj h1
        cases Option.some.inj h2
        rfl
      | succ n => exact ih ys n a b h1 h2

theorem setCol_rows_get (t : Table) (c : String) (vals : List Json)
    (n : Nat) (row : List Json) (v : Json)
    (hrow : t.rows.get? n = some row) (hv : vals.get? n = some v) :
    (setCol t c vals).rows.get? n =
      some (if c ∈ t.cols then row.set (idxOfS c t.cols) v else row ++ [v]) := by
  have hz := get?_zip_some t.rows vals n row v hrow hv
  rw [setCol]
  split
  · rw [List.get?_map, hz]; rfl
  · rw [List.get?_map, hz]; rfl

theorem setCol_rows_length (t : Table) (c : String) (vals : List Json)
    (hlen : vals.length = t.rows.length) :
    (setCol t c vals).rows.length = t.rows.length := by
  rw [setCol]
  split <;> simp [List.length_zip, hlen]

theorem setCol_wf (t : Table) (c : String) (vals : List Json)
    (hwf : Wf t) : Wf (setCol t c vals) := by
  intro row2 hrow2
  rw [setCol] at hrow2 ⊢
  split at hrow2 <;> rename_i h
  · obtain ⟨rv, hrv, hre⟩ := List.mem_map.mp hrow2
    have hr1 : rv.1 ∈ t.rows := (List.mem_zip hrv).1
    rw [if_pos h, ← hre]
    simp [hwf rv.1 hr1]
  · obtain ⟨rv, hrv, hre⟩ := List.mem_map.mp hrow2
    have hr1 : rv.1 ∈ t.rows := (List.mem_zip hrv).1
    rw [if_neg h, ← hre]
    simp [hwf rv.1 hr1]

theorem applyDim_some (t : Table) (col dim : String) (i : Nat) (t2 : Table)
    (h : applyDim t col dim i = some t2) :
    ∃ vals, mapO (fun row => lambdaVal t.cols row col i) t.rows = some vals ∧
      t2 = setCol t (dimName col dim) vals := by
  rw [applyDim] at h
  cases hm : mapO (fun row => lambdaVal t.cols row col i) t.rows with
  | none => rw [hm] at h; cases h
  | some vals =>
    rw [hm] at h
    exact ⟨vals, rfl, (Option.some.inj h).symm⟩

/-! ### Lemmas about the per-column split assignments -/

theorem setCol_mem_self (t : Table) (c : String) (vals : List Json) :
    c ∈ (setCol t c vals).cols := by
  rw [setCol_cols]
  split
  · assumption
  · simp

theorem setCol_mem_mono (t : Table) (c : String) (vals : List Json) (c2 : String)
    (h : c2 ∈ t.cols) : c2 ∈ (setCol t c vals).cols := by
  rw [setCol_cols]
  split
  · exact h
  · exact List.mem_append_left _ h

theorem applyDim_wf (t : Table) (col dim : String) (i : Nat) (t2 : Table)
    (hwf : Wf t) (h : applyDim t col dim i = some t2) : Wf t2 := by
  obtain ⟨vals, _, rfl⟩ := applyDim_some t col dim i t2 h
  exact setCol_wf t _ vals hwf

theorem applyDim_rows_length (t : Table) (col dim : String) (i : Nat) (t2 : Table)
    (h : applyDim t col dim i = some t2) : t2.rows.length = t.rows.length := by
  obtain ⟨vals, hm, rfl⟩ := applyDim_some t col dim i t2 h
  exact setCol_rows_length t _ vals (mapO_length _ _ _ hm)

theorem applyDim_cols (t : Table) (col dim : String) (i : Nat) (t2 : Table)
    (h : applyDim t col dim i = some t2) :
    t2.cols = t.cols ∨ t2.cols = t.cols ++ [dimName col dim] := by
  obtain ⟨vals, _, rfl⟩ := applyDim_some t col dim i t2 h
  rw [setCol_cols]
  split
  · exact Or.inl rfl
  · exact Or.inr rfl

theorem applyDim_mem_self (t : Table) (col dim : String) (i : Nat) (t2 : Table)
    (h : applyDim t col dim i = some t2) : dimName col dim ∈ t2.cols := by
  obtain ⟨vals, _, rfl⟩ := applyDim_some t col dim i t2 h
  exact setCol_mem_self t _ vals

theorem applyDim_mem_mono (t : Table) (col dim : String) (i : Nat) (t2 : Table)
    (h : applyDim t col dim i = some t2) (c2 : String) (hc : c2 ∈ t.cols) : c2 ∈ t2.cols := by
  obtain ⟨vals, _, rfl⟩ := applyDim_some t col dim i t2 h
  exact setCol_mem_mono t _ vals c2 hc

theorem applyDim_count (t : Table) (col dim : String) (i : Nat) (t2 : Table)
    (h : applyDim t col dim i = some t2) (c : String) (hc : dimName col dim ≠ c) :
    t2.cols.count c = t.cols.count c := by
  rcases applyDim_cols t col dim i t2 h with he | he
  · rw [he]
  · rw [he, List.count_append]
    have : List.count c [dimName col dim] = 0 := by
      rw [List.count_eq_zero, List.mem_singleton]
      exact fun he => hc he.symm
    rw [this]
    rfl

theorem applyDim_preserve (t : Table) (col dim : String) (i : Nat) (t2 : Table)
    (hwf : Wf t) (h : applyDim t col dim i = some t2)
    (j : Nat) (k : String) (hj : t.cols.get? j = some k) (hk : dimName col dim ≠ k) :
    t2.cols.get? j = some k ∧
      ∀ n row, t.rows.get? n = some row →
        ∃ row2, t2.rows.get? n = some row2 ∧ row2.get? j = row.get? j := by
  obtain ⟨hjl, _⟩ := List.get?_eq_some.mp hj
  obtain ⟨vals, hm, rfl⟩ := applyDim_some t col dim i t2 h
  constructor
  · rw [setCol_cols]
    split
    · exact hj
    · rw [List.get?_append hjl]
      exact hj
  · intro n row hrow
    obtain ⟨v, _, hv⟩ := mapO_get _ _ _ hm n row hrow
    refine ⟨_, setCol_rows_get t _ vals n row v hrow hv, ?_⟩
    have hrl : row.length = t.cols.length := hwf row (List.get?_mem hrow)
    split
    · next hmem =>
      have hspec := idxOfS_spec (dimName col dim) t.cols hmem
      have hne : idxOfS (dimName col dim) t.cols ≠ j := by
        intro he
        rw [he, hj] at hspec
        exact hk (Option.some.inj hspec.1).symm
      exact List.get?_set_ne v row hne
    · exact List.get?_append (by omega)

theorem applyDim_write (t : Table) (col dim : String) (i : Nat) (t2 : Table)
    (hwf : Wf t) (h : applyDim t col dim i = some t2) :
    ∀ n row, t.rows.get? n = some row →
      ∃ row2 v, t2.rows.get? n = some row2 ∧ lambdaVal t.cols row col i = some v ∧
        rowVal t2.cols row2 (dimName col dim) = v := by
  obtain ⟨vals, hm, rfl⟩ := applyDim_some t col dim i t2 h
  intro n row hrow
  obtain ⟨v, hfv, hv⟩ := mapO_get _ _ _ hm n row hrow
  refine ⟨_, v, setCol_rows_get t _ vals n row v hrow hv, hfv, ?_⟩
  have hrl : row.length = t.cols.length := hwf row (List.get?_mem hrow)
  by_cases hmem : dimName col dim ∈ t.cols
  · rw [if_pos hmem, setCol_cols, if_pos hmem]
    have hspec := idxOfS_spec (dimName col dim) t.cols hmem
    have hlt : idxOfS (dimName col dim) t.cols < row.length := by
      rw [hrl]; exact hspec.2
    have hget : (row.set (idxOfS (dimName col dim) t.cols) v).get? (idxOfS (dimName col dim) t.cols) = some v := by
      rw [List.get?_set_eq]
      rw [List.get?_eq_get hlt]
      rfl
    have hpos := rowVal_pos (dimName col dim) t.cols (row.set (idxOfS (dimName col dim) t.cols) v)
      (by simp [hrl]) hmem
    rw [hget] at hpos
    exact (Option.some.inj hpos).symm
  · rw [if_neg hmem, setCol_cols, if_neg hmem]
    have hidx : idxOfS (dimName col dim) (t.cols ++ [dimName col dim]) = t.cols.length :=
      idxOfS_append_self (dimName col dim) t.cols hmem
    have hget : (row ++ [v]).get? t.cols.length = some v := by
      rw [← hrl]
      exact List.get?_concat_length row v
    have hpos := rowVal_pos (dimName col dim) (t.cols ++ [dimName col dim]) (row ++ [v])
      (by simp [hrl]) (by simp)
    rw [hidx, hget] at hpos
    exact (Option.some.inj hpos).symm

theorem applyDim_preserve_rowVal (t : Table) (col dim : String) (i : Nat) (t2 : Table)
    (hwf : Wf t) (h : applyDim t col dim i = some t2)
    (c : String) (hc : dimName col dim ≠ c) (hcm : c ∈ t.cols) :
    ∀ n row, t.rows.get? n = some row →
      ∃ row2, t2.rows.get? n = some row2 ∧ rowVal t2.cols row2 c = rowVal t.cols row c := by
  intro n row hrow
  have hspec := idxOfS_spec c t.cols hcm
  obtain ⟨hcols, hrows⟩ := applyDim_preserve t col dim i t2 hwf h (idxOfS c t.cols) c hspec.1 hc
  obtain ⟨row2, hrow2, hval⟩ := hrows n row hrow
  refine ⟨row2, hrow2, ?_⟩
  have hrl : row.length = t.cols.length := hwf row (List.get?_mem hrow)
  have hrl2 : row2.length = t2.cols.length :=
    applyDim_wf t col dim i t2 hwf h row2 (List.get?_mem hrow2)
  have hidx2 : idxOfS c t2.cols = idxOfS c t.cols := by
    rcases applyDim_cols t col dim i t2 h with he | he
    · rw [he]
    · rw [he, idxOfS_append_left c t.cols [dimName col dim] hcm]
  have hp1 := rowVal_pos c t.cols row hrl hcm
  have hp2 := rowVal_pos c t2.cols row2 hrl2 (applyDim_mem_mono t col dim i t2 h c hcm)
  rw [hidx2, hval, hp1] at hp2
  exact (Option.some.inj hp2).symm

theorem lambdaVal_congr (cols1 cols2 : List String) (row1 row2 : List Json)
    (col : String) (i : Nat) (hc : cols1.count col = cols2.count col)
    (hv : rowVal cols1 row1 col = rowVal cols2 row2 col) :
    lambdaVal cols1 row1 col i = lambdaVal cols2 row2 col i := by
  rw [lambdaVal, lambdaVal, hc, hv]

/-! ### Lemmas about the location-split loop -/

theorem splitCol_some (t : Table) (c : String) (t2 : Table)
    (h : splitCol t c = some t2) :
    ∃ tx, applyDim t c "x" 0 = some tx ∧ applyDim tx c "y" 1 = some t2 := by
  rw [splitCol] at h
  cases hx : applyDim t c "x" 0 with
  | none => rw [hx] at h; cases h
  | some tx =>
    rw [hx] at h
    exact ⟨tx, rfl, h⟩

theorem splitCol_wf (t : Table) (c : String) (t2 : Table)
    (hwf : Wf t) (h : splitCol t c = some t2) : Wf t2 := by
  obtain ⟨tx, hx, hy⟩ := splitCol_some t c t2 h
  exact applyDim_wf tx c "y" 1 t2 (applyDim_wf t c "x" 0 tx hwf hx) hy

theorem splitCol_rows_length (t : Table) (c : String) (t2 : Table)
    (h : splitCol t c = some t2) : t2.rows.length = t.rows.length := by
  obtain ⟨tx, hx, hy⟩ := splitCol_some t c t2 h
  rw [applyDim_rows_length tx c "y" 1 t2 hy, applyDim_rows_length t c "x" 0 tx hx]

theorem splitCol_cols (t : Table) (c : String) (t2 : Table)
    (h : splitCol t c = some t2) :
    ∃ ext, t2.cols = t.cols ++ ext ∧
      ∀ z ∈ ext, z = dimName c "x" ∨ z = dimName c "y" := by
  obtain ⟨tx, hx, hy⟩ := splitCol_some t c t2 h
  rcases applyDim_cols t c "x" 0 tx hx with he1 | he1 <;>
    rcases applyDim_cols tx c "y" 1 t2 hy with he2 | he2
  · exact ⟨[], by simp [he2, he1], by simp⟩
  · refine ⟨[dimName c "y"], by rw [he2, he1], ?_⟩
    intro z hz
    rw [List.mem_singleton] at hz
    exact Or.inr hz
  · refine ⟨[dimName c "x"], by rw [he2, he1], ?_⟩
    intro z hz
    rw [List.mem_singleton] at hz
    exact Or.inl hz
  · refine ⟨[dimName c "x", dimName c "y"], by rw [he2, he1, List.append_assoc]; rfl, ?_⟩
    intro z hz
    rcases List.mem_cons.mp hz with rfl | hz2
    · exact Or.inl rfl
    · rw [List.mem_singleton] at hz2
      exact Or.inr hz2

theorem splitCol_mem_mono (t : Table) (c : String) (t2 : Table)
    (h : splitCol t c = some t2) (c2 : String) (hc : c2 ∈ t.cols) : c2 ∈ t2.cols := by
  obtain ⟨ext, he, _⟩ := splitCol_cols t c t2 h
  rw [he]
  exact List.mem_append_left _ hc

theorem splitCol_count (t : Table) (c : String) (t2 : Table)
    (h : splitCol t c = some t2) (c2 : String)
    (hx : dimName c "x" ≠ c2) (hy : dimName c "y" ≠ c2) :
    t2.cols.count c2 = t.cols.count c2 := by
  obtain ⟨tx, hax, hay⟩ := splitCol_some t c t2 h
  rw [applyDim_count tx c "y" 1 t2 hay c2 hy, applyDim_count t c "x" 0 tx hax c2 hx]

theorem splitCol_preserve (t : Table) (c : String) (t2 : Table)
    (hwf : Wf t) (h : splitCol t c = some t2)
    (j : Nat) (k : String) (hj : t.cols.get? j = some k)
    (hx : dimName c "x" ≠ k) (hy : dimName c "y" ≠ k) :
    t2.cols.get? j = some k ∧
      ∀ n row, t.rows.get? n = some row →
        ∃ row2, t2.rows.get? n = some row2 ∧ row2.get? j = row.get? j := by
  obtain ⟨tx, hax, hay⟩ := splitCol_some t c t2 h
  obtain ⟨hc1, hr1⟩ := applyDim_preserve t c "x" 0 tx hwf hax j k hj hx
  obtain ⟨hc2, hr2⟩ := applyDim_preserve tx c "y" 1 t2 (applyDim_wf t c "x" 0 tx hwf hax) hay j k hc1 hy
  refine ⟨hc2, ?_⟩
  intro n row hrow
  obtain ⟨rowx, hrowx, hvx⟩ := hr1 n row hrow
  obtain ⟨row2, hrow2, hv2⟩ := hr2 n rowx hrowx
  exact ⟨row2, hrow2, by rw [hv2, hvx]⟩

theorem splitCol_preserve_rowVal (t : Table) (c : String) (t2 : Table)
    (hwf : Wf t) (h : splitCol t c = some t2)
    (c2 : String) (hx : dimName c "x" ≠ c2) (hy : dimName c "y" ≠ c2) (hcm : c2 ∈ t.cols) :
    ∀ n row, t.rows.get? n = some row →
      ∃ row2, t2.rows.get? n = some row2 ∧ rowVal t2.cols row2 c2 = rowVal t.cols row c2 := by
  obtain ⟨tx, hax, hay⟩ := splitCol_some t c t2 h
  intro n row hrow
  obtain ⟨rowx, hrowx, hvx⟩ := applyDim_preserve_rowVal t c "x" 0 tx hwf hax c2 hx hcm n row hrow
  obtain ⟨row2, hrow2, hv2⟩ := applyDim_preserve_rowVal tx c "y" 1 t2
    (applyDim_wf t c "x" 0 tx hwf hax) hay c2 hy
    (applyDim_mem_mono t c "x" 0 tx hax c2 hcm) n rowx hrowx
  exact ⟨row2, hrow2, by rw [hv2, hvx]⟩

theorem splitCol_write (t : Table) (c : String) (t2 : Table)
    (hwf : Wf t) (h : splitCol t c = some t2)
    (hloc : hasLoc c = true) (hcount : t.cols.count c = 1) :
    ∀ n row, t.rows.get? n = some row →
      ∃ row2 v0 v1, t2.rows.get? n = some row2 ∧
        lambdaVal t.cols row c 0 = some v0 ∧ lambdaVal t.cols row c 1 = some v1 ∧
        rowVal t2.cols row2 (dimName c "x") = v0 ∧ rowVal t2.cols row2 (dimName c "y") = v1 := by
  obtain ⟨tx, hax, hay⟩ := splitCol_some t c t2 h
  have hwfx : Wf tx := applyDim_wf t c "x" 0 tx hwf hax
  have hxc : dimName c "x" ≠ c := dimName_ne_locName c c hloc hloc "x" (Or.inl rfl)
  have hyc : dimName c "y" ≠ c := dimName_ne_locName c c hloc hloc "y" (Or.inr rfl)
  have hcm : c ∈ t.cols := List.count_pos_iff.mp (by omega)
  intro n row hrow
  obtain ⟨rowx, v0, hrowx, hlv0, hval0⟩ := applyDim_write t c "x" 0 tx hwf hax n row hrow
  obtain ⟨rowx2, hrowx2, hvalc⟩ := applyDim_preserve_rowVal t c "x" 0 tx hwf hax c hxc hcm n row hrow
  have hrowxe : rowx = rowx2 := by
    rw [hrowx] at hrowx2
    exact Option.some.inj hrowx2
  subst hrowxe
  obtain ⟨row2, v1, hrow2, hlv1, hval1⟩ := applyDim_write tx c "y" 1 t2 hwfx hay n rowx hrowx
  have hlv1t : lambdaVal t.cols row c 1 = some v1 := by
    rw [← hlv1]
    exact (lambdaVal_congr tx.cols t.cols rowx row c 1
      (by rw [applyDim_count t c "x" 0 tx hax c hxc]) (by rw [hvalc])).symm
  obtain ⟨row2b, hrow2b, hvalx2⟩ := applyDim_preserve_rowVal tx c "y" 1 t2 hwfx hay
    (dimName c "x") (Ne.symm (dimName_x_ne_y c hloc))
    (applyDim_mem_self t c "x" 0 tx hax) n rowx hrowx
  have hrow2e : row2 = row2b := by
    rw [hrow2] at hrow2b
    exact Option.some.inj hrow2b
  subst hrow2e
  exact ⟨row2, v0, v1, hrow2, hlv0, hlv1t, by rw [hvalx2, hval0], hval1⟩

theorem runSplits_cons (t : Table) (c : String) (cs : List String) (t2 : Table)
    (h : runSplits t (c :: cs) = some t2) :
    ∃ tm, splitCol t c = some tm ∧ runSplits tm cs = some t2 := by
  rw [runSplits] at h
  cases hm : splitCol t c with
  | none => rw [hm] at h; cases h
  | some tm =>
    rw [hm] at h
    exact ⟨tm, rfl, h⟩

theorem runSplits_wf (cs : List String) :
    ∀ (t t2 : Table), Wf t → runSplits t cs = some t2 → Wf t2 := by
  induction cs with
  | nil => intro t t2 hwf h; cases Option.some.inj h; exact hwf
  | cons c cs ih =>
    intro t t2 hwf h
    obtain ⟨tm, hm, hrest⟩ := runSplits_cons t c cs t2 h
    exact ih tm t2 (splitCol_wf t c tm hwf hm) hrest

theorem runSplits_rows_length (cs : List String) :
    ∀ (t t2 : Table), runSplits t cs = some t2 → t2.rows.length = t.rows.length := by
  induction cs with
  | nil => intro t t2 h; cases Option.some.inj h; rfl
  | cons c cs ih =>
    intro t t2 h
    obtain ⟨tm, hm, hrest⟩ := runSplits_cons t c cs t2 h
    rw [ih tm t2 hrest, splitCol_rows_length t c tm hm]

theorem runSplits_cols (cs : List String) :
    ∀ (t t2 : Table), runSplits t cs = some t2 →
      ∃ ext, t2.cols = t.cols ++ ext ∧
        ∀ z ∈ ext, ∃ c2 ∈ cs, z = dimName c2 "x" ∨ z = dimName c2 "y" := by
  induction cs with
  | nil =>
    intro t t2 h
    cases Option.some.inj h
    exact ⟨[], by simp, by simp⟩
  | cons c cs ih =>
    intro t t2 h
    obtain ⟨tm, hm, hrest⟩ := runSplits_cons t c cs t2 h
    obtain ⟨ext1, he1, hz1⟩ := splitCol_cols t c tm hm
    obtain ⟨ext2, he2, hz2⟩ := ih tm t2 hrest
    refine ⟨ext1 ++ ext2, by rw [he2, he1, List.append_assoc], ?_⟩
    intro z hz
    rcases List.mem_append.mp hz with h1 | h2
    · exact ⟨c, List.mem_cons_self c cs, hz1 z h1⟩
    · obtain ⟨c2, hc2, hd⟩ := hz2 z h2
      exact ⟨c2, List.mem_cons_of_mem c hc2, hd⟩

theorem runSplits_mem_mono (cs : List String) (t t2 : Table)
    (h : runSplits t cs = some t2) (c2 : String) (hc : c2 ∈ t.cols) : c2 ∈ t2.cols := by
  obtain ⟨ext, he, _⟩ := runSplits_cols cs t t2 h
  rw [he]
  exact List.mem_append_left _ hc

theorem runSplits_count (cs : List String) (t t2 : Table)
    (h : runSplits t cs = some t2) (c : String)
    (hc : ∀ c2 ∈ cs, dimName c2 "x" ≠ c ∧ dimName c2 "y" ≠ c) :
    t2.cols.count c = t.cols.count c := by
  obtain ⟨ext, he, hz⟩ := runSplits_cols cs t t2 h
  rw [he, List.count_append]
  have : List.count c ext = 0 := by
    rw [List.count_eq_zero]
    intro hm
    obtain ⟨c2, hc2, hd⟩ := hz c hm
    rcases hd with hd | hd
    · exact (hc c2 hc2).1 hd.symm
    · exact (hc c2 hc2).2 hd.symm
  rw [this]
  rfl

theorem runSplits_preserve (cs : List String) :
    ∀ (t t2 : Table), Wf t → runSplits t cs = some t2 →
    ∀ (j : Nat) (k : String), t.cols.get? j = some k →
      (∀ c2 ∈ cs, dimName c2 "x" ≠ k ∧ dimName c2 "y" ≠ k) →
      t2.cols.get? j = some k ∧
        ∀ n row, t.rows.get? n = some row →
          ∃ row2, t2.rows.get? n = some row2 ∧ row2.get? j = row.get? j := by
  induction cs with
  | nil =>
    intro t t2 _ h j k hj _
    cases Option.some.inj h
    refine ⟨hj, ?_⟩
    intro n row hrow
    exact ⟨row, hrow, rfl⟩
  | cons c cs ih =>
    intro t t2 hwf h j k hj hno
    obtain ⟨tm, hm, hrest⟩ := runSplits_cons t c cs t2 h
    have hnoc := hno c (List.mem_cons_self c cs)
    obtain ⟨hc1, hr1⟩ := splitCol_preserve t c tm hwf hm j k hj hnoc.1 hnoc.2
    obtain ⟨hc2, hr2⟩ := ih tm t2 (splitCol_wf t c tm hwf hm) hrest j k hc1
      (fun c2 hc2 => hno c2 (List.mem_cons_of_mem c hc2))
    refine ⟨hc2, ?_⟩
    intro n row hrow
    obtain ⟨rowm, hrowm, hvm⟩ := hr1 n row hrow
    obtain ⟨row2, hrow2, hv2⟩ := hr2 n rowm hrowm
    exact ⟨row2, hrow2, by rw [hv2, hvm]⟩

theorem runSplits_preserve_rowVal (cs : List String) (t t2 : Table)
    (hwf : Wf t) (h : runSplits t cs = some t2) (c : String) (hcm : c ∈ t.cols)
    (hno : ∀ c2 ∈ cs, dimName c2 "x" ≠ c ∧ dimName c2 "y" ≠ c) :
    ∀ n row, t.rows.get? n = some row →
      ∃ row2, t2.rows.get? n = some row2 ∧ rowVal t2.cols row2 c = rowVal t.cols row c := by
  intro n row hrow
  have hspec := idxOfS_spec c t.cols hcm
  obtain ⟨hcols, hrows⟩ := runSplits_preserve cs t t2 hwf h (idxOfS c t.cols) c hspec.1 hno
  obtain ⟨row2, hrow2, hval⟩ := hrows n row hrow
  refine ⟨row2, hrow2, ?_⟩
  have hrl : row.length = t.cols.length := hwf row (List.get?_mem hrow)
  have hrl2 : row2.length = t2.cols.length :=
    runSplits_wf cs t t2 hwf h row2 (List.get?_mem hrow2)
  have hidx2 : idxOfS c t2.cols = idxOfS c t.cols := by
    obtain ⟨ext, he, _⟩ := runSplits_cols cs t t2 h
    rw [he, idxOfS_append_left c t.cols ext hcm]
  have hp1 := rowVal_pos c t.cols row hrl hcm
  have hp2 := rowVal_pos c t2.cols row2 hrl2 (runSplits_mem_mono cs t t2 h c hcm)
  rw [hidx2, hval, hp1] at hp2
  exact (Option.some.inj hp2).symm

theorem runSplits_write (cs : List String) :
    ∀ (t t2 : Table), Wf t → runSplits t cs = some t2 →
    (∀ c2 ∈ cs, hasLoc c2 = true) →
    ∀ c : String, cs.count c = 1 → t.cols.count c = 1 →
    (∀ c2 ∈ cs, c2 ≠ c → (dimName c2 "x" ≠ dimName c "x" ∧ dimName c2 "y" ≠ dimName c "x" ∧
        dimName c2 "x" ≠ dimName c "y" ∧ dimName c2 "y" ≠ dimName c "y")) →
    ∀ n row, t.rows.get? n = some row →
      ∃ row2 v0 v1, t2.rows.get? n = some row2 ∧
        lambdaVal t.cols row c 0 = some v0 ∧ lambdaVal t.cols row c 1 = some v1 ∧
        rowVal t2.cols row2 (dimName c "x") = v0 ∧ rowVal t2.cols row2 (dimName c "y") = v1 := by
  induction cs with
  | nil => intro t t2 _ _ _ c hcc; simp at hcc
  | cons c0 cs ih =>
    intro t t2 hwf h hlocs c hcc hcount hno n row hrow
    obtain ⟨tm, hm, hrest⟩ := runSplits_cons t c0 cs t2 h
    have hwfm : Wf tm := splitCol_wf t c0 tm hwf hm
    have hloc0 : hasLoc c0 = true := hlocs c0 (List.mem_cons_self c0 cs)
    by_cases he0 : c0 = c
    · subst he0
      have hcnotin : c0 ∉ cs := by
        rw [List.count_cons_self] at hcc
        exact List.count_eq_zero.mp (by omega)
      obtain ⟨rowm, v0, v1, hrowm, hlv0, hlv1, hvx, hvy⟩ :=
        splitCol_write t c0 tm hwf hm hloc0 hcount n row hrow
      have hnox : ∀ c2 ∈ cs, dimName c2 "x" ≠ dimName c0 "x" ∧ dimName c2 "y" ≠ dimName c0 "x" := by
        intro c2 hc2
        have hne : c2 ≠ c0 := fun he => hcnotin (he ▸ hc2)
        obtain ⟨h1, h2, _, _⟩ := hno c2 (List.mem_cons_of_mem c0 hc2) hne
        exact ⟨h1, h2⟩
      have hnoy : ∀ c2 ∈ cs, dimName c2 "x" ≠ dimName c0 "y" ∧ dimName c2 "y" ≠ dimName c0 "y" := by
        intro c2 hc2
        have hne : c2 ≠ c0 := fun he => hcnotin (he ▸ hc2)
        obtain ⟨_, _, h3, h4⟩ := hno c2 (List.mem_cons_of_mem c0 hc2) hne
        exact ⟨h3, h4⟩
      have hmemx : dimName c0 "x" ∈ tm.cols := by
        obtain ⟨tx, hax, hay⟩ := splitCol_some t c0 tm hm
        exact applyDim_mem_mono tx c0 "y" 1 tm hay _ (applyDim_mem_self t c0 "x" 0 tx hax)
      have hmemy : dimName c0 "y" ∈ tm.cols := by
        obtain ⟨tx, hax, hay⟩ := splitCol_some t c0 tm hm
        exact applyDim_mem_self tx c0 "y" 1 tm hay
      obtain ⟨row2, hrow2, hpx⟩ := runSplits_preserve_rowVal cs tm t2 hwfm hrest
        (dimName c0 "x") hmemx hnox n rowm hrowm
      obtain ⟨row2b, hrow2b, hpy⟩ := runSplits_preserve_rowVal cs tm t2 hwfm hrest
        (dimName c0 "y") hmemy hnoy n rowm hrowm
      have hre : row2 = row2b := by
        rw [hrow2] at hrow2b
        exact Option.some.inj hrow2b
      subst hre
      exact ⟨row2, v0, v1, hrow2, hlv0, hlv1, by rw [hpx, hvx], by rw [hpy, hvy]⟩
    · have hcm : c ∈ t.cols := List.count_pos_iff.mp (by omega)
      have hccs : List.count c cs = 1 := by
        rw [List.count_cons] at hcc
        have : (c0 == c) = false := beq_eq_false_iff_ne.mpr he0
        rw [this] at hcc
        simpa using hcc
      have hcmem : c ∈ cs := List.count_pos_iff.mp (by omega)
      have hlocc : hasLoc c = true := hlocs c (List.mem_cons_of_mem c0 hcmem)
      have hx0c : dimName c0 "x" ≠ c := dimName_ne_locName c0 c hloc0 hlocc "x" (Or.inl rfl)
      have hy0c : dimName c0 "y" ≠ c := dimName_ne_locName c0 c hloc0 hlocc "y" (Or.inr rfl)
      have hcountm : tm.cols.count c = 1 := by
        rw [splitCol_count t c0 tm hm c hx0c hy0c]
        exact hcount
      obtain ⟨rowm, hrowm, hvalm⟩ :=
        splitCol_preserve_rowVal t c0 tm hwf hm c hx0c hy0c hcm n row hrow
      obtain ⟨row2, v0, v1, hrow2, hlv0, hlv1, hvx, hvy⟩ :=
        ih tm t2 hwfm hrest (fun c2 hc2 => hlocs c2 (List.mem_cons_of_mem c0 hc2)) c hccs hcountm
          (fun c2 hc2 hne => hno c2 (List.mem_cons_of_mem c0 hc2) hne) n rowm hrowm
      have hcongr : ∀ i, lambdaVal t.cols row c i = lambdaVal tm.cols rowm c i := by
        intro i
        apply lambdaVal_congr
        · rw [hcountm, hcount]
        · rw [hvalm]
      exact ⟨row2, v0, v1, hrow2, by rw [hcongr 0]; exact hlv0, by rw [hcongr 1]; exact hlv1, hvx, hvy⟩

theorem splitCol_crash (t : Table) (c : String) (hwf : Wf t) (hloc : hasLoc c = true)
    (hcount : t.cols.count c = 1) (n : Nat) (row : List Json) (xs : List Json)
    (hrow : t.rows.get? n = some row) (hval : rowVal t.cols row c = Json.arr xs)
    (hlen : xs.length < 2) : splitCol t c = none := by
  have hxc : dimName c "x" ≠ c := dimName_ne_locName c c hloc hloc "x" (Or.inl rfl)
  have hcm : c ∈ t.cols := List.count_pos_iff.mp (by omega)
  cases xs with
  | nil =>
    have hlv : lambdaVal t.cols row c 0 = none := by
      rw [lambdaVal, hcount, hval]
      rfl
    have hax : applyDim t c "x" 0 = none := by
      rw [applyDim, mapO_eq_none (fun r => lambdaVal t.cols r c 0) t.rows n row hrow hlv]
    rw [splitCol, hax]
  | cons v0 xs2 =>
    have hxs2 : xs2 = [] := by
      rw [List.length_cons] at hlen
      exact List.length_eq_zero.mp (by omega)
    subst hxs2
    cases hax : applyDim t c "x" 0 with
    | none => rw [splitCol, hax]
    | some tx =>
      have hwfx : Wf tx := applyDim_wf t c "x" 0 tx hwf hax
      obtain ⟨rowx, hrowx, hvalx⟩ :=
        applyDim_preserve_rowVal t c "x" 0 tx hwf hax c hxc hcm n row hrow
      have hlvy : lambdaVal tx.cols rowx c 1 = none := by
        rw [lambdaVal_congr tx.cols t.cols rowx row c 1
          (by rw [applyDim_count t c "x" 0 tx hax c hxc]) (by rw [hvalx])]
        rw [lambdaVal, hcount, hval]
        rfl
      have hay : applyDim tx c "y" 1 = none := by
        rw [applyDim, mapO_eq_none (fun r => lambdaVal tx.cols r c 1) tx.rows n rowx hrowx hlvy]
      rw [splitCol, hax]
      exact hay

theorem runSplits_crash (cs : List String) :
    ∀ t : Table, Wf t → (∀ c2 ∈ cs, hasLoc c2 = true) →
    ∀ c, c ∈ cs → t.cols.count c = 1 →
    ∀ (n : Nat) (row : List Json) (xs : List Json), t.rows.get? n = some row →
      rowVal t.cols row c = Json.arr xs → xs.length < 2 →
      runSplits t cs = none := by
  induction cs with
  | nil => intro t _ _ c hc; cases hc
  | cons c0 cs ih =>
    intro t hwf hlocs c hc hcount n row xs hrow hval hlen
    have hloc0 : hasLoc c0 = true := hlocs c0 (List.mem_cons_self c0 cs)
    by_cases he0 : c0 = c
    · subst he0
      rw [runSplits, splitCol_crash t c0 hwf hloc0 hcount n row xs hrow hval hlen]
    · have hcmem : c ∈ cs := by
        rcases List.mem_cons.mp hc with he | hm
        · exact absurd he.symm he0
        · exact hm
      cases hm : splitCol t c0 with
      | none => rw [runSplits, hm]
      | some tm =>
        have hlocc : hasLoc c = true := hlocs c (List.mem_cons_of_mem c0 hcmem)
        have hx0c : dimName c0 "x" ≠ c := dimName_ne_locName c0 c hloc0 hlocc "x" (Or.inl rfl)
        have hy0c : dimName c0 "y" ≠ c := dimName_ne_locName c0 c hloc0 hlocc "y" (Or.inr rfl)
        have hcm : c ∈ t.cols := List.count_pos_iff.mp (by omega)
        have hcountm : tm.cols.count c = 1 := by
          rw [splitCol_count t c0 tm hm c hx0c hy0c]
          exact hcount
        obtain ⟨rowm, hrowm, hvalm⟩ :=
          splitCol_preserve_rowVal t c0 tm hwf hm c hx0c hy0c hcm n row hrow
        rw [runSplits, hm]
        exact ih tm (splitCol_wf t c0 tm hwf hm)
          (fun c2 hc2 => hlocs c2 (List.mem_cons_of_mem c0 hc2)) c hcmem hcountm n rowm xs hrowm
          (by rw [hvalm]; exact hval) hlen

/-! ### Lemmas about column subsetting -/

theorem keepCols_cols (t : Table) (p : String → Bool) : (keepCols t p).cols = t.cols.filter p := rfl

theorem keepCols_rows_get (t : Table) (p : String → Bool) (n : Nat) (row : List Json)
    (hrow : t.rows.get? n = some row) :
    (keepCols t p).rows.get? n =
      some (((t.cols.zip row).filter (fun cv => p cv.1)).map Prod.snd) := by
  show (t.rows.map _).get? n = _
  rw [List.get?_map, hrow]
  rfl

theorem keepCols_rows_length (t : Table) (p : String → Bool) :
    (keepCols t p).rows.length = t.rows.length := by
  show (t.rows.map _).length = _
  rw [List.length_map]

theorem filter_zip_map_fst (p : String → Bool) :
    ∀ (cols : List String) (row : List Json), row.length = cols.length →
      ((cols.zip row).filter (fun cv => p cv.1)).map Prod.fst = cols.filter p := by
  intro cols
  induction cols with
  | nil => intro row _; rfl
  | cons k ks ih =>
    intro row h
    cases row with
    | nil => simp at h
    | cons v vs =>
      simp only [List.zip_cons_cons, List.filter_cons]
      cases hp : p k with
    | false =>
        have hp2 : p (k, v).1 = false := hp
        simp only [hp, hp2, Bool.false_eq_true, if_false]
        exact ih vs (by simpa using h)
    | true =>
        have hp2 : p (k, v).1 = true := hp
        simp only [hp, hp2, if_true]
        rw [List.map_cons]
        rw [ih vs (by simpa using h)]

theorem zip_fst_snd : ∀ X : List (String × Json), (X.map Prod.fst).zip (X.map Prod.snd) = X := by
  intro X
  induction X with
  | nil => rfl
  | cons x xs ih =>
    rw [List.map_cons, List.map_cons, List.zip_cons_cons, ih]

theorem keepCols_wf (t : Table) (p : String → Bool) (hwf : Wf t) : Wf (keepCols t p) := by
  intro row2 hrow2
  obtain ⟨row, hrowm, hre⟩ := List.mem_map.mp hrow2
  rw [← hre, List.length_map, keepCols_cols,
    ← filter_zip_map_fst p t.cols row (hwf row hrowm), List.length_map]

theorem rowVal_keepCols (p : String → Bool) (c : String) (hp : p c = true) :
    ∀ (cols : List String) (row : List Json),
      rowVal (cols.filter p) (((cols.zip row).filter (fun cv => p cv.1)).map Prod.snd) c =
        rowVal cols row c := by
  intro cols
  induction cols with
  | nil => intro row; rfl
  | cons k ks ih =>
    intro row
    cases row with
    | nil =>
      show rowVal ((k :: ks).filter p) [] c = rowVal (k :: ks) [] c
      have h2 : ∀ cs2 : List String, rowVal cs2 ([] : List Json) c = Json.null := by
        intro cs2
        rw [rowVal, List.zip_nil_right]
        rfl
      rw [h2, h2]
    | cons v vs =>
      simp only [List.zip_cons_cons, List.filter_cons]
      cases hpk : p k with
    | false =>
        have hp2 : p (k, v).1 = false := hpk
        simp only [hpk, hp2, Bool.false_eq_true, if_false]
        rw [ih vs]
        have hkc : (k = c) → False := fun he => by rw [he, hp] at hpk; cases hpk
        have hb : ((k, v).1 == c) = false := beq_eq_false_iff_ne.mpr (fun he => hkc he)
        have hRHS : rowVal (k :: ks) (v :: vs) c = rowVal ks vs c := by
          conv_lhs => rw [rowVal, List.zip_cons_cons, List.find?_cons, hb]
          rfl
        rw [hRHS]
    | true =>
        have hp2 : p (k, v).1 = true := hpk
        simp only [hpk, hp2, if_true]
        rw [List.map_cons]
        by_cases hkc : k = c
        · rw [rowVal, rowVal, List.zip_cons_cons, List.zip_cons_cons,
            List.find?_cons, List.find?_cons]
          have hb : ((k, v).1 == c) = true := beq_iff_eq.mpr hkc
          rw [hb]
        · rw [rowVal, rowVal, List.zip_cons_cons, List.zip_cons_cons,
            List.find?_cons, List.find?_cons]
          have hb : ((k, v).1 == c) = false := beq_eq_false_iff_ne.mpr (fun he => hkc he)
          rw [hb]
          have := ih vs
          rw [rowVal, rowVal] at this
          exact this

theorem rowValAt_keepCols (t : Table) (p : String → Bool) (n : Nat) (c : String)
    (hp : p c = true) : rowValAt (keepCols t p) n c = rowValAt t n c := by
  cases hrow : t.rows.get? n with
  | none =>
    have h2 : (keepCols t p).rows.get? n = none := by
      rw [List.get?_eq_none, keepCols_rows_length]
      rw [List.get?_eq_none] at hrow
      exact hrow
    rw [rowValAt, rowValAt, hrow, h2]
  | some row =>
    rw [rowValAt, rowValAt, hrow, keepCols_rows_get t p n row hrow, keepCols_cols]
    exact rowVal_keepCols p c hp t.cols row

theorem mem_keepCols (t : Table) (p : String → Bool) (c : String) :
    c ∈ (keepCols t p).cols ↔ c ∈ t.cols ∧ p c = true := by
  rw [keepCols_cols, List.mem_filter]

/-! ### Lemmas about the whole pipeline -/

theorem notContains_iff (l : List String) (c : String) :
    ((!(l.contains c)) = true) ↔ c ∉ l := by
  constructor
  · intro h hm
    have he : l.contains c = true := List.elem_iff.mpr hm
    rw [he] at h
    cases h
  · intro h
    cases hc : l.contains c
    · rfl
    · exact absurd (List.elem_iff.mp hc) h

theorem flatten_some (events : List RawEvent) (d : List String) (t : Table)
    (h : flatten events d = some t) :
    ∃ t2, runSplits (normTable events) (locColsOf (normTable events)) = some t2 ∧
      t = keepCols (keepCols t2 (fun c => !((locColsOf (normTable events)).contains c)))
            (fun c => !(d.contains c)) := by
  simp only [flatten] at h
  cases hr : runSplits (normTable events) (locColsOf (normTable events)) with
  | none => rw [hr] at h; cases h
  | some t2 =>
    rw [hr] at h
    exact ⟨t2, rfl, (Option.some.inj h).symm⟩

theorem mem_locColsOf (t : Table) (c : String) :
    c ∈ locColsOf t ↔ c ∈ t.cols ∧ hasLoc c = true := by
  rw [locColsOf, List.mem_filter]

theorem flatten_no_loc_cols (events : List RawEvent) (d : List String) (t : Table)
    (h : flatten events d = some t) (c : String) (hloc : hasLoc c = true) : c ∉ t.cols := by
  obtain ⟨t2, hr, rfl⟩ := flatten_some events d t h
  intro hmem
  obtain ⟨hm1, _⟩ := (mem_keepCols _ _ c).mp hmem
  obtain ⟨hm2, hp1⟩ := (mem_keepCols _ _ c).mp hm1
  have hnotloc : c ∉ locColsOf (normTable events) := (notContains_iff _ c).mp hp1
  obtain ⟨ext, he, hz⟩ := runSplits_cols _ _ _ hr
  rw [he] at hm2
  rcases List.mem_append.mp hm2 with hm3 | hm3
  · exact hnotloc ((mem_locColsOf _ c).mpr ⟨hm3, hloc⟩)
  · obtain ⟨c2, hc2, hdim⟩ := hz c hm3
    have hloc2 : hasLoc c2 = true := ((mem_locColsOf _ c2).mp hc2).2
    rcases hdim with rfl | rfl
    · rw [hasLoc_dimName c2 hloc2 "x" (Or.inl rfl)] at hloc
      cases hloc
    · rw [hasLoc_dimName c2 hloc2 "y" (Or.inr rfl)] at hloc
      cases hloc

theorem runSplits_dims_mem (cs : List String) :
    ∀ (t t2 : Table) (c : String), c ∈ cs → runSplits t cs = some t2 →
      dimName c "x" ∈ t2.cols ∧ dimName c "y" ∈ t2.cols := by
  induction cs with
  | nil => intro t t2 c hc; cases hc
  | cons c0 cs ih =>
    intro t t2 c hc h
    obtain ⟨tm, hm, hrest⟩ := runSplits_cons t c0 cs t2 h
    by_cases he0 : c0 = c
    · subst he0
      obtain ⟨tx, hax, hay⟩ := splitCol_some t c0 tm hm
      have hx : dimName c0 "x" ∈ tm.cols :=
        applyDim_mem_mono tx c0 "y" 1 tm hay _ (applyDim_mem_self t c0 "x" 0 tx hax)
      have hy : dimName c0 "y" ∈ tm.cols := applyDim_mem_self tx c0 "y" 1 tm hay
      exact ⟨runSplits_mem_mono cs tm t2 hrest _ hx, runSplits_mem_mono cs tm t2 hrest _ hy⟩
    · have hcm : c ∈ cs := by
        rcases List.mem_cons.mp hc with he | hm2
        · exact absurd he.symm he0
        · exact hm2
      exact ih tm t2 c hcm hrest

theorem get?_zip_inv {α β : Type} :
    ∀ (l1 : List α) (l2 : List β) (n : Nat) (a : α) (b : β),
      (l1.zip l2).get? n = some (a, b) → l1.get? n = some a ∧ l2.get? n = some b := by
  intro l1
  induction l1 with
  | nil => intro l2 n a b h; cases h
  | cons x xs ih =>
    intro l2 n a b h
    cases l2 with
    | nil => cases h
    | cons y ys =>
      cases n with
      | zero =>
        rw [List.zip_cons_cons] at h
        have := Option.some.inj h
        rw [Prod.mk.injEq] at this
        rw [this.1, this.2]
        exact ⟨rfl, rfl⟩
      | succ n =>
        rw [List.zip_cons_cons] at h
        exact ih ys n a b h

theorem rowValAt_eq (t : Table) (n : Nat) (c : String) (row : List Json)
    (h : t.rows.get? n = some row) : rowValAt t n c = rowVal t.cols row c := by
  rw [rowValAt, h]

/-- C1: the single-event input `[{"type": {"name": "Pass"}, "pass":
{"end_location": [10, 20]}}]` with an empty `dropColumns` set produces exactly
one flat record `{"type_name": "Pass", "pass_end_x": 10, "pass_end_y": 20}`
and no other columns. -/
theorem C1_end_to_end :
    flatten [passEvent] [] =
      some { cols := ["type_name", "pass_end_x", "pass_end_y"], rows := [[Json.str "Pass", Json.num 10, Json.num 20]] } := rfl

/-- C2 counterexample: an event whose raw field `pass.end_location` equals
`[60, 40]` but whose literal sibling field `pass_end_location` collides with
it after the rename; both copies of the duplicated label are seen as a
Series by the split lambda, so `pass_end_x` comes out `null`, not `60`. -/
theorem C2_counterexample :
    getVal (canonRec dupLabelEvent) "pass.end_location" = Json.arr [Json.num 60, Json.num 40] ∧
    flatten [dupLabelEvent] [] =
      some { cols := ["pass_end_x", "pass_end_y"], rows := [[Json.null, Json.null]] } ∧
    Json.null ≠ Json.num 60 :=
  ⟨rfl, rfl, fun h => Json.noConfusion h⟩

/-- C3 counterexample: an array-valued field whose name does not contain
`"location"` and is not dropped survives flattening as a non-scalar value. -/
theorem C3_counterexample :
    flatten [arrayFieldEvent] [] =
      some { cols := ["foo"], rows := [[Json.arr [Json.num 1, Json.num 2, Json.num 3]]] } ∧
    ScalarOK (Json.arr [Json.num 1, Json.num 2, Json.num 3]) = false :=
  ⟨rfl, rfl⟩

/-- C4 counterexample: with `pass.end_location = [1, 2, 3]` — a list, but not
a two-element list — the derived columns get `1` and `2`, not `null`. -/
theorem C4_counterexample :
    flatten [threeElemEvent] [] =
      some { cols := ["pass_end_x", "pass_end_y"], rows := [[Json.num 1, Json.num 2]] } ∧
    Json.num 1 ≠ Json.null :=
  ⟨rfl, fun h => Json.noConfusion h⟩

/-- C5 counterexample: of two events only the first has `shot.xg`, yet the
split of the location-named column `shot_locationg` overwrites `shot_xg`:
the first row ends with `null` (its value `5` is lost) and the second row —
the one lacking the field — ends with `1`, not `null`. -/
theorem C5_counterexample :
    getVal (renamedRec shotXgEvent) "shot_xg" = Json.num 5 ∧
    getVal (renamedRec shotLocationgEvent) "shot_xg" = Json.null ∧
    flatten [shotXgEvent, shotLocationgEvent] [] =
      some { cols := ["shot_xg", "shot_yg"]
             rows := [[Json.null, Json.null], [Json.num 1, Json.num 2]] } ∧
    Json.null ≠ Json.num 5 :=
  ⟨rfl, rfl, rfl, fun h => Json.noConfusion h⟩

/-- C6 counterexample: with `dropColumns = {"tactics_lineup"}`, an event whose
`tactics.lineup` field is a nested mapping is expanded by the normalizer into
the column `tactics_lineup_player`, which is derived from `tactics_lineup`
but survives the drop. -/
theorem C6_counterexample :
    flatten [tacticsNestedEvent] ["tactics_lineup"] =
      some { cols := ["tactics_lineup_player"], rows := [[Json.num 7]] } ∧
    "tactics_lineup".data.isPrefixOf "tactics_lineup_player".data = true :=
  ⟨rfl, rfl⟩

/-- C8 counterexample: the scalar leaf `"hi"` of the field `location_note` is
not covered by `dropColumns` (empty here) and is not a coordinate split of a
two-element numeric array, yet it is silently dropped: the output holds only
the two derived null columns. -/
theorem C8_counterexample :
    getVal (renamedRec locationNoteEvent) "location_note" = Json.str "hi" ∧
    flatten [locationNoteEvent] [] =
      some { cols := ["x_note", "y_note"], rows := [[Json.null, Json.null]] } :=
  ⟨rfl, rfl⟩

/-- C10 counterexample: the record's value in the location-named column
`a_location` is the empty list — fewer than two elements — yet, the label
being duplicated by the nested sibling `a.location`, the split lambda sees a
Series rather than a list and flattening succeeds with nulls: no
out-of-bounds indexing error is raised. -/
theorem C10_counterexample :
    getVal (renamedRec dupShortEvent) "a_location" = Json.arr [] ∧
    ([] : List Json).length < 2 ∧
    hasLoc "a_location" = true ∧
    flatten [dupShortEvent] [] =
      some { cols := ["a_x", "a_y"], rows := [[Json.null, Json.null]] } :=
  ⟨rfl, by decide, rfl, rfl⟩

/-- C2 (amended): provided exactly one column of the normalized-and-renamed
table is named `pass_end_location` (no second field collides with that name —
the counterexample shows the claim fails otherwise), every event whose
flattened field `pass_end_location` equals `[60, 40]` yields an output record
with `pass_end_x = 60` and `pass_end_y = 40`, and the output table has no
`pass_end_location` column. -/
theorem C2_coordinate_split (events : List RawEvent) (n : Nat) (e : RawEvent) (t : Table)
    (hn : events.get? n = some e)
    (hflat : flatten events columns_to_remove = some t)
    (hcount : (normTable events).cols.count "pass_end_location" = 1)
    (hval : getVal (renamedRec e) "pass_end_location" = Json.arr [Json.num 60, Json.num 40]) :
    rowValAt t n "pass_end_x" = Json.num 60 ∧ rowValAt t n "pass_end_y" = Json.num 40 ∧
      "pass_end_location" ∉ t.cols := by
  obtain ⟨t2, hr, ht⟩ := flatten_some events columns_to_remove t hflat
  have hwf1 : Wf (normTable events) := normTable_wf events
  have hrow1 := normTable_rows_get events n e hn
  have hrv1 : rowVal (normTable events).cols
      ((unionCols events).map (fun c => getVal (canonRec e) c)) "pass_end_location" =
      Json.arr [Json.num 60, Json.num 40] := by
    rw [rowVal_normTable events n e hn _ hcount _ hrow1, hval]
  have hlocpel : hasLoc "pass_end_location" = true := by decide
  have hmem1 : "pass_end_location" ∈ (normTable events).cols := List.count_pos_iff.mp (by omega)
  have hlocs : ∀ c2 ∈ locColsOf (normTable events), hasLoc c2 = true :=
    fun c2 hc2 => ((mem_locColsOf _ c2).mp hc2).2
  have hcountloc : (locColsOf (normTable events)).count "pass_end_location" = 1 := by
    rw [locColsOf, List.count_filter hlocpel]
    exact hcount
  have hwx : dimName "pass_end_location" "x" = "pass_end_x" := by decide
  have hwy : dimName "pass_end_location" "y" = "pass_end_y" := by decide
  have hno : ∀ c2 ∈ locColsOf (normTable events), c2 ≠ "pass_end_location" →
      (dimName c2 "x" ≠ dimName "pass_end_location" "x" ∧
       dimName c2 "y" ≠ dimName "pass_end_location" "x" ∧
       dimName c2 "x" ≠ dimName "pass_end_location" "y" ∧
       dimName c2 "y" ≠ dimName "pass_end_location" "y") := by
    intro c2 hc2 hne
    have hl2 : hasLoc c2 = true := hlocs c2 hc2
    refine ⟨?_, ?_, ?_, ?_⟩
    · rw [hwx]; intro he; exact hne (dimName_x_inv c2 hl2 he)
    · rw [hwx]; exact dimName_y_ne_pass_end_x c2 hl2
    · rw [hwy]; exact dimName_x_ne_pass_end_y c2 hl2
    · rw [hwy]; intro he; exact hne (dimName_y_inv c2 hl2 he)
  obtain ⟨row2, v0, v1, hrow2, hlv0, hlv1, hvx, hvy⟩ :=
    runSplits_write (locColsOf (normTable events)) (normTable events) t2 hwf1 hr hlocs
      "pass_end_location" hcountloc hcount hno n _ hrow1
  have hv0 : v0 = Json.num 60 := by
    have h60 : lambdaVal (normTable events).cols
        ((unionCols events).map (fun c => getVal (canonRec e) c)) "pass_end_location" 0 =
        some (Json.num 60) := by
      rw [lambdaVal, hcount, hrv1]
      rfl
    rw [h60] at hlv0
    exact (Option.some.inj hlv0).symm
  have hv1 : v1 = Json.num 40 := by
    have h40 : lambdaVal (normTable events).cols
        ((unionCols events).map (fun c => getVal (canonRec e) c)) "pass_end_location" 1 =
        some (Json.num 40) := by
      rw [lambdaVal, hcount, hrv1]
      rfl
    rw [h40] at hlv1
    exact (Option.some.inj hlv1).symm
  have hP1x : ((!((locColsOf (normTable events)).contains "pass_end_x")) = true) :=
    (notContains_iff _ _).mpr (fun hm => absurd (hlocs _ hm) (by decide))
  have hP1y : ((!((locColsOf (normTable events)).contains "pass_end_y")) = true) :=
    (notContains_iff _ _).mpr (fun hm => absurd (hlocs _ hm) (by decide))
  have hP2x : ((!(columns_to_remove.contains "pass_end_x")) = true) := by decide
  have hP2y : ((!(columns_to_remove.contains "pass_end_y")) = true) := by decide
  refine ⟨?_, ?_, flatten_no_loc_cols events columns_to_remove t hflat _ hlocpel⟩
  · rw [ht, rowValAt_keepCols _ _ n _ hP2x, rowValAt_keepCols _ _ n _ hP1x,
      rowValAt_eq t2 n _ row2 hrow2, ← hwx, hvx, hv0]
  · rw [ht, rowValAt_keepCols _ _ n _ hP2y, rowValAt_keepCols _ _ n _ hP1y,
      rowValAt_eq t2 n _ row2 hrow2, ← hwy, hvy, hv1]

/-- C2 witness: the amended claim applied to a single clean event with
`pass.end_location = [60, 40]`. -/
theorem C2_coordinate_split_witness :
    flatten [passEvent60] columns_to_remove =
      some { cols := ["pass_end_x", "pass_end_y"], rows := [[Json.num 60, Json.num 40]] } ∧
    (rowValAt { cols := ["pass_end_x", "pass_end_y"], rows := [[Json.num 60, Json.num 40]] }
        0 "pass_end_x" = Json.num 60 ∧
     rowValAt { cols := ["pass_end_x", "pass_end_y"], rows := [[Json.num 60, Json.num 40]] }
        0 "pass_end_y" = Json.num 40 ∧
     "pass_end_location" ∉
       ({ cols := ["pass_end_x", "pass_end_y"], rows := [[Json.num 60, Json.num 40]] } : Table).cols) :=
  ⟨rfl, C2_coordinate_split [passEvent60] 0 passEvent60 _ rfl rfl rfl rfl⟩

/-- C4 (amended): provided exactly one column of the normalized-and-renamed
table is named `pass_end_location`, an event whose value there is absent or
not a list yields `pass_end_x = null` and `pass_end_y = null`.  (The claim's
"not a two-element list" wording fails for longer lists — see the
counterexample — so the amended hypothesis is "not a list".) -/
theorem C4_null_on_missing (events : List RawEvent) (n : Nat) (e : RawEvent) (t : Table)
    (hn : events.get? n = some e)
    (hflat : flatten events columns_to_remove = some t)
    (hcount : (normTable events).cols.count "pass_end_location" = 1)
    (hval : ∀ xs, getVal (renamedRec e) "pass_end_location" ≠ Json.arr xs) :
    rowValAt t n "pass_end_x" = Json.null ∧ rowValAt t n "pass_end_y" = Json.null := by
  obtain ⟨t2, hr, ht⟩ := flatten_some events columns_to_remove t hflat
  have hwf1 : Wf (normTable events) := normTable_wf events
  have hrow1 := normTable_rows_get events n e hn
  have hrv1 : rowVal (normTable events).cols
      ((unionCols events).map (fun c => getVal (canonRec e) c)) "pass_end_location" =
      getVal (renamedRec e) "pass_end_location" :=
    rowVal_normTable events n e hn _ hcount _ hrow1
  have hlocpel : hasLoc "pass_end_location" = true := by decide
  have hmem1 : "pass_end_location" ∈ (normTable events).cols := List.count_pos_iff.mp (by omega)
  have hlocs : ∀ c2 ∈ locColsOf (normTable events), hasLoc c2 = true :=
    fun c2 hc2 => ((mem_locColsOf _ c2).mp hc2).2
  have hcountloc : (locColsOf (normTable events)).count "pass_end_location" = 1 := by
    rw [locColsOf, List.count_filter hlocpel]
    exact hcount
  have hwx : dimName "pass_end_location" "x" = "pass_end_x" := by decide
  have hwy : dimName "pass_end_location" "y" = "pass_end_y" := by decide
  have hno : ∀ c2 ∈ locColsOf (normTable events), c2 ≠ "pass_end_location" →
      (dimName c2 "x" ≠ dimName "pass_end_location" "x" ∧
       dimName c2 "y" ≠ dimName "pass_end_location" "x" ∧
       dimName c2 "x" ≠ dimName "pass_end_location" "y" ∧
       dimName c2 "y" ≠ dimName "pass_end_location" "y") := by
    intro c2 hc2 hne
    have hl2 : hasLoc c2 = true := hlocs c2 hc2
    refine ⟨?_, ?_, ?_, ?_⟩
    · rw [hwx]; intro he; exact hne (dimName_x_inv c2 hl2 he)
    · rw [hwx]; exact dimName_y_ne_pass_end_x c2 hl2
    · rw [hwy]; exact dimName_x_ne_pass_end_y c2 hl2
    · rw [hwy]; intro he; exact hne (dimName_y_inv c2 hl2 he)
  obtain ⟨row2, v0, v1, hrow2, hlv0, hlv1, hvx, hvy⟩ :=
    runSplits_write (locColsOf (normTable events)) (normTable events) t2 hwf1 hr hlocs
      "pass_end_location" hcountloc hcount hno n _ hrow1
  have hnulls : ∀ i, lambdaVal (normTable events).cols
      ((unionCols events).map (fun c => getVal (canonRec e) c)) "pass_end_location" i =
      some Json.null := by
    intro i
    rw [lambdaVal, hcount, hrv1]
    cases hg : getVal (renamedRec e) "pass_end_location" with
    | arr xs => exact absurd hg (hval xs)
    | null => rfl
    | bool b => rfl
    | num m => rfl
    | str s => rfl
    | obj fs => rfl
  have hv0 : v0 = Json.null := by
    rw [hnulls 0] at hlv0
    exact (Option.some.inj hlv0).symm
  have hv1 : v1 = Json.null := by
    rw [hnulls 1] at hlv1
    exact (Option.some.inj hlv1).symm
  have hP1x : ((!((locColsOf (normTable events)).contains "pass_end_x")) = true) :=
    (notContains_iff _ _).mpr (fun hm => absurd (hlocs _ hm) (by decide))
  have hP1y : ((!((locColsOf (normTable events)).contains "pass_end_y")) = true) :=
    (notContains_iff _ _).mpr (fun hm => absurd (hlocs _ hm) (by decide))
  have hP2x : ((!(columns_to_remove.contains "pass_end_x")) = true) := by decide
  have hP2y : ((!(columns_to_remove.contains "pass_end_y")) = true) := by decide
  constructor
  · rw [ht, rowValAt_keepCols _ _ n _ hP2x, rowValAt_keepCols _ _ n _ hP1x,
      rowValAt_eq t2 n _ row2 hrow2, ← hwx, hvx, hv0]
  · rw [ht, rowValAt_keepCols _ _ n _ hP2y, rowValAt_keepCols _ _ n _ hP1y,
      rowValAt_eq t2 n _ row2 hrow2, ← hwy, hvy, hv1]

/-- C4 witness: the amended claim applied to an event whose
`pass.end_location` is the string `"bad"`. -/
theorem C4_null_on_missing_witness :
    flatten [passEventStr] columns_to_remove =
      some { cols := ["pass_end_x", "pass_end_y"], rows := [[Json.null, Json.null]] } ∧
    (rowValAt { cols := ["pass_end_x", "pass_end_y"], rows := [[Json.null, Json.null]] }
        0 "pass_end_x" = Json.null ∧
     rowValAt { cols := ["pass_end_x", "pass_end_y"], rows := [[Json.null, Json.null]] }
        0 "pass_end_y" = Json.null) :=
  ⟨rfl, C4_null_on_missing [passEventStr] 0 passEventStr _ rfl rfl rfl
    (fun xs h => Json.noConfusion h)⟩

/-- C5 (amended): provided `shot_xg` names exactly one column of the
normalized table, is not dropped, and no location column's derived `x`/`y`
name collides with it (the counterexample shows the collision breaks the
claim), the output has a `shot_xg` column and every row carries exactly its
event's flattened `shot_xg` value — the value itself when the field is
present and null when it is absent (column union with null backfill). -/
theorem C5_column_union (events : List RawEvent) (d : List String) (n : Nat) (e : RawEvent)
    (t : Table) (hn : events.get? n = some e) (hflat : flatten events d = some t)
    (hcount : (normTable events).cols.count "shot_xg" = 1)
    (hd : "shot_xg" ∉ d)
    (hno : ∀ c ∈ (normTable events).cols, hasLoc c = true →
      dimName c "x" ≠ "shot_xg" ∧ dimName c "y" ≠ "shot_xg") :
    "shot_xg" ∈ t.cols ∧ rowValAt t n "shot_xg" = getVal (renamedRec e) "shot_xg" := by
  obtain ⟨t2, hr, ht⟩ := flatten_some events d t hflat
  have hwf1 : Wf (normTable events) := normTable_wf events
  have hrow1 := normTable_rows_get events n e hn
  have hmem1 : "shot_xg" ∈ (normTable events).cols := List.count_pos_iff.mp (by omega)
  have hnoloc : ∀ c2 ∈ locColsOf (normTable events),
      dimName c2 "x" ≠ "shot_xg" ∧ dimName c2 "y" ≠ "shot_xg" := by
    intro c2 hc2
    obtain ⟨hm, hl⟩ := (mem_locColsOf _ c2).mp hc2
    exact hno c2 hm hl
  obtain ⟨row2, hrow2, hpres⟩ :=
    runSplits_preserve_rowVal _ _ _ hwf1 hr "shot_xg" hmem1 hnoloc n _ hrow1
  have hP1 : ((!((locColsOf (normTable events)).contains "shot_xg")) = true) :=
    (notContains_iff _ _).mpr (fun hm => absurd (((mem_locColsOf _ _).mp hm).2) (by decide))
  have hP2 : ((!(d.contains "shot_xg")) = true) := (notContains_iff _ _).mpr hd
  constructor
  · rw [ht, mem_keepCols, mem_keepCols]
    exact ⟨⟨runSplits_mem_mono _ _ _ hr _ hmem1, hP1⟩, hP2⟩
  · rw [ht, rowValAt_keepCols _ _ n _ hP2, rowValAt_keepCols _ _ n _ hP1,
      rowValAt_eq t2 n _ row2 hrow2, hpres,
      rowVal_normTable events n e hn _ hcount _ hrow1]

/-- C5 witness: two events, only the first with `shot.xg`; the second row
gets null. -/
theorem C5_column_union_witness :
    flatten [shotXgEvent, shotOtherEvent] [] =
      some { cols := ["shot_xg", "foo"], rows := [[Json.num 5, Json.null], [Json.null, Json.num 1]] } ∧
    ("shot_xg" ∈
        ({ cols := ["shot_xg", "foo"], rows := [[Json.num 5, Json.null], [Json.null, Json.num 1]] } : Table).cols ∧
      rowValAt { cols := ["shot_xg", "foo"], rows := [[Json.num 5, Json.null], [Json.null, Json.num 1]] }
        1 "shot_xg" = getVal (renamedRec shotOtherEvent) "shot_xg") :=
  ⟨rfl, C5_column_union [shotXgEvent, shotOtherEvent] [] 1 shotOtherEvent _ rfl rfl rfl
    (by decide) (by decide)⟩

/-- C6 (amended): the drop mechanism removes exactly the columns whose name
is literally in `dropColumns`: no output column is named by an element of
`dropColumns`.  (Columns merely derived from a dropped name's nested
contents survive — see the counterexample.) -/
theorem C6_drop_exact_names (events : List RawEvent) (d : List String) (t : Table)
    (hflat : flatten events d = some t) : ∀ c ∈ d, c ∉ t.cols := by
  obtain ⟨t2, hr, ht⟩ := flatten_some events d t hflat
  intro c hc hmem
  rw [ht, mem_keepCols] at hmem
  exact (notContains_iff d c).mp hmem.2 hc

/-- C6 witness: the amended claim applied to the nested `tactics.lineup`
event. -/
theorem C6_drop_exact_names_witness :
    flatten [tacticsNestedEvent] ["tactics_lineup"] =
      some { cols := ["tactics_lineup_player"], rows := [[Json.num 7]] } ∧
    (∀ c ∈ ["tactics_lineup"],
      c ∉ ({ cols := ["tactics_lineup_player"], rows := [[Json.num 7]] } : Table).cols) :=
  ⟨rfl, C6_drop_exact_names [tacticsNestedEvent] ["tactics_lineup"] _ rfl⟩

/-- C7: the flattening pipeline is a pure function of its inputs: equal
event sequences and equal drop lists give identical results, and in this
embedding `flatten` has no state to mutate, so repeated application to the
same input yields the same table. -/
theorem C7_deterministic (events events2 : List RawEvent) (d d2 : List String)
    (h1 : events = events2) (h2 : d = d2) : flatten events d = flatten events2 d2 := by
  rw [h1, h2]

/-- C7 witness: determinism at a concrete input. -/
theorem C7_deterministic_witness :
    ([passEvent] = [passEvent]) ∧ flatten [passEvent] [] = flatten [passEvent] [] :=
  ⟨rfl, C7_deterministic [passEvent] [passEvent] [] [] rfl rfl⟩

/-- C9: selection of coordinate columns is purely name-based: every
normalized column whose name contains `"location"` is split and removed
regardless of its values (its derived `x`/`y` columns, named by replacing
`"location"` with `"x"` and `"y"`, appear in the output unless named in
`dropColumns`), and every normalized column whose name lacks `"location"`
and is not dropped survives regardless of its values. -/
theorem C9_name_based_selection (events : List RawEvent) (d : List String) (t : Table)
    (hflat : flatten events d = some t) :
    (∀ c ∈ (normTable events).cols, hasLoc c = true →
      c ∉ t.cols ∧ (dimName c "x" ∈ t.cols ∨ dimName c "x" ∈ d) ∧
        (dimName c "y" ∈ t.cols ∨ dimName c "y" ∈ d)) ∧
    (∀ c ∈ (normTable events).cols, hasLoc c = false → c ∉ d → c ∈ t.cols) := by
  obtain ⟨t2, hr, ht⟩ := flatten_some events d t hflat
  constructor
  · intro c hc hloc
    have hcl : c ∈ locColsOf (normTable events) := (mem_locColsOf _ c).mpr ⟨hc, hloc⟩
    obtain ⟨hx2, hy2⟩ := runSplits_dims_mem _ _ _ c hcl hr
    refine ⟨flatten_no_loc_cols events d t hflat c hloc, ?_, ?_⟩
    · by_cases hdx : dimName c "x" ∈ d
      · exact Or.inr hdx
      · refine Or.inl ?_
        rw [ht, mem_keepCols, mem_keepCols]
        refine ⟨⟨hx2, ?_⟩, (notContains_iff _ _).mpr hdx⟩
        refine (notContains_iff _ _).mpr (fun hm => ?_)
        have h2 := ((mem_locColsOf _ _).mp hm).2
        rw [hasLoc_dimName c hloc "x" (Or.inl rfl)] at h2
        cases h2
    · by_cases hdy : dimName c "y" ∈ d
      · exact Or.inr hdy
      · refine Or.inl ?_
        rw [ht, mem_keepCols, mem_keepCols]
        refine ⟨⟨hy2, ?_⟩, (notContains_iff _ _).mpr hdy⟩
        refine (notContains_iff _ _).mpr (fun hm => ?_)
        have h2 := ((mem_locColsOf _ _).mp hm).2
        rw [hasLoc_dimName c hloc "y" (Or.inr rfl)] at h2
        cases h2
  · intro c hc hloc hd
    rw [ht, mem_keepCols, mem_keepCols]
    refine ⟨⟨runSplits_mem_mono _ _ _ hr c hc, ?_⟩, (notContains_iff _ _).mpr hd⟩
    refine (notContains_iff _ _).mpr (fun hm => ?_)
    have h2 := ((mem_locColsOf _ _).mp hm).2
    rw [hloc] at h2
    cases h2

/-- C9 witness: name-based selection on the end-to-end example. -/
theorem C9_name_based_selection_witness :
    flatten [passEvent] [] =
      some { cols := ["type_name", "pass_end_x", "pass_end_y"], rows := [[Json.str "Pass", Json.num 10, Json.num 20]] } ∧
    ((∀ c ∈ (normTable [passEvent]).cols, hasLoc c = true →
      c ∉ ({ cols := ["type_name", "pass_end_x", "pass_end_y"], rows := [[Json.str "Pass", Json.num 10, Json.num 20]] } : Table).cols ∧
        (dimName c "x" ∈ ({ cols := ["type_name", "pass_end_x", "pass_end_y"], rows := [[Json.str "Pass", Json.num 10, Json.num 20]] } : Table).cols ∨
          dimName c "x" ∈ ([] : List String)) ∧
        (dimName c "y" ∈ ({ cols := ["type_name", "pass_end_x", "pass_end_y"], rows := [[Json.str "Pass", Json.num 10, Json.num 20]] } : Table).cols ∨
          dimName c "y" ∈ ([] : List String))) ∧
    (∀ c ∈ (normTable [passEvent]).cols, hasLoc c = false → c ∉ ([] : List String) →
      c ∈ ({ cols := ["type_name", "pass_end_x", "pass_end_y"], rows := [[Json.str "Pass", Json.num 10, Json.num 20]] } : Table).cols)) :=
  ⟨rfl, C9_name_based_selection [passEvent] [] _ rfl⟩

/-- C10 (amended): for a well-defined location column (it names exactly one
normalized column and its derived column names are not produced by any
other location column nor dropped), a record holding a list of fewer than
two elements makes the whole flattening raise an out-of-bounds error
(modelled as `none`), while on success the derived columns keep exactly
indices 0 and 1 of the list, discarding any extra elements.  The
uniqueness proviso is necessary: with a duplicated label the lambda sees a
Series, emits null and never raises — see `C10_counterexample`. -/
theorem C10_short_and_long_lists (events : List RawEvent) (d : List String)
    (n : Nat) (e : RawEvent) (c : String) (xs : List Json)
    (hn : events.get? n = some e) (hloc : hasLoc c = true)
    (hcount : (normTable events).cols.count c = 1)
    (hno : ∀ c2 ∈ (normTable events).cols, hasLoc c2 = true → c2 ≠ c →
      (dimName c2 "x" ≠ dimName c "x" ∧ dimName c2 "y" ≠ dimName c "x" ∧
       dimName c2 "x" ≠ dimName c "y" ∧ dimName c2 "y" ≠ dimName c "y"))
    (hdx : dimName c "x" ∉ d) (hdy : dimName c "y" ∉ d)
    (hval : getVal (renamedRec e) c = Json.arr xs) :
    (xs.length < 2 → flatten events d = none) ∧
    (∀ t, flatten events d = some t →
      rowValAt t n (dimName c "x") = xs.getD 0 Json.null ∧
      rowValAt t n (dimName c "y") = xs.getD 1 Json.null) := by
  have hwf1 : Wf (normTable events) := normTable_wf events
  have hrow1 := normTable_rows_get events n e hn
  have hrv1 : rowVal (normTable events).cols
      ((unionCols events).map (fun c2 => getVal (canonRec e) c2)) c = Json.arr xs := by
    rw [rowVal_normTable events n e hn c hcount _ hrow1, hval]
  have hmem1 : c ∈ (normTable events).cols := List.count_pos_iff.mp (by omega)
  have hmemloc : c ∈ locColsOf (normTable events) := (mem_locColsOf _ _).mpr ⟨hmem1, hloc⟩
  have hlocs : ∀ c2 ∈ locColsOf (normTable events), hasLoc c2 = true :=
    fun c2 hc2 => ((mem_locColsOf _ c2).mp hc2).2
  constructor
  · intro hlen
    have hcrash := runSplits_crash (locColsOf (normTable events)) (normTable events) hwf1
      hlocs c hmemloc hcount n _ xs hrow1 hrv1 hlen
    simp only [flatten]
    rw [hcrash]
  · intro t hflat
    obtain ⟨t2, hr, ht⟩ := flatten_some events d t hflat
    have hcountloc : (locColsOf (normTable events)).count c = 1 := by
      rw [locColsOf, List.count_filter hloc]
      exact hcount
    have hno2 : ∀ c2 ∈ locColsOf (normTable events), c2 ≠ c →
        (dimName c2 "x" ≠ dimName c "x" ∧ dimName c2 "y" ≠ dimName c "x" ∧
         dimName c2 "x" ≠ dimName c "y" ∧ dimName c2 "y" ≠ dimName c "y") := by
      intro c2 hc2 hne
      obtain ⟨hm, hl⟩ := (mem_locColsOf _ c2).mp hc2
      exact hno c2 hm hl hne
    obtain ⟨row2, v0, v1, hrow2, hlv0, hlv1, hvx, hvy⟩ :=
      runSplits_write (locColsOf (normTable events)) (normTable events) t2 hwf1 hr hlocs
        c hcountloc hcount hno2 n _ hrow1
    have hget0 : lambdaVal (normTable events).cols
        ((unionCols events).map (fun c2 => getVal (canonRec e) c2)) c 0 = xs.get? 0 := by
      rw [lambdaVal, hcount, hrv1]
    have hget1 : lambdaVal (normTable events).cols
        ((unionCols events).map (fun c2 => getVal (canonRec e) c2)) c 1 = xs.get? 1 := by
      rw [lambdaVal, hcount, hrv1]
    have hv0 : xs.getD 0 Json.null = v0 := by
      rw [hget0] at hlv0
      rw [List.getD_eq_get?, hlv0]
      rfl
    have hv1 : xs.getD 1 Json.null = v1 := by
      rw [hget1] at hlv1
      rw [List.getD_eq_get?, hlv1]
      rfl
    have hP1x : ((!((locColsOf (normTable events)).contains (dimName c "x"))) = true) := by
      refine (notContains_iff _ _).mpr (fun hm => ?_)
      have h2 := hlocs _ hm
      rw [hasLoc_dimName c hloc "x" (Or.inl rfl)] at h2
      cases h2
    have hP1y : ((!((locColsOf (normTable events)).contains (dimName c "y"))) = true) := by
      refine (notContains_iff _ _).mpr (fun hm => ?_)
      have h2 := hlocs _ hm
      rw [hasLoc_dimName c hloc "y" (Or.inr rfl)] at h2
      cases h2
    have hP2x : ((!(d.contains (dimName c "x"))) = true) := (notContains_iff _ _).mpr hdx
    have hP2y : ((!(d.contains (dimName c "y"))) = true) := (notContains_iff _ _).mpr hdy
    constructor
    · rw [ht, rowValAt_keepCols _ _ n _ hP2x, rowValAt_keepCols _ _ n _ hP1x,
        rowValAt_eq t2 n _ row2 hrow2, hvx, hv0]
    · rw [ht, rowValAt_keepCols _ _ n _ hP2y, rowValAt_keepCols _ _ n _ hP1y,
        rowValAt_eq t2 n _ row2 hrow2, hvy, hv1]

/-- C10 witness: a three-element list in the column named `location` is
truncated to indices 0 and 1. -/
theorem C10_short_and_long_lists_witness :
    flatten [locationTripleEvent] [] =
      some { cols := ["x", "y"], rows := [[Json.num 1, Json.num 2]] } ∧
    ((([Json.num 1, Json.num 2, Json.num 3] : List Json).length < 2 →
        flatten [locationTripleEvent] [] = none) ∧
      (∀ t, flatten [locationTripleEvent] [] = some t →
        rowValAt t 0 (dimName "location" "x") =
          ([Json.num 1, Json.num 2, Json.num 3] : List Json).getD 0 Json.null ∧
        rowValAt t 0 (dimName "location" "y") =
          ([Json.num 1, Json.num 2, Json.num 3] : List Json).getD 1 Json.null)) :=
  ⟨rfl, C10_short_and_long_lists [locationTripleEvent] [] 0 locationTripleEvent "location"
    [Json.num 1, Json.num 2, Json.num 3] rfl (by decide) rfl (by decide) (by decide) (by decide) rfl⟩

theorem keep_zip_mem (t : Table) (p : String → Bool) (n : Nat) (row : List Json)
    (hrow : t.rows.get? n = some row) (hlen : row.length = t.cols.length)
    (k : String) (v : Json) (hm : (k, v) ∈ t.cols.zip row) (hp : p k = true) :
    ∃ row3, (keepCols t p).rows.get? n = some row3 ∧ (k, v) ∈ (keepCols t p).cols.zip row3 := by
  refine ⟨_, keepCols_rows_get t p n row hrow, ?_⟩
  have hz : (keepCols t p).cols.zip (((t.cols.zip row).filter (fun cv => p cv.1)).map Prod.snd) =
      (t.cols.zip row).filter (fun cv => p cv.1) := by
    rw [keepCols_cols, ← filter_zip_map_fst p t.cols row hlen, zip_fst_snd]
  rw [hz]
  exact List.mem_filter.mpr ⟨hm, hp⟩

/-- C8 (amended): a leaf scalar survives flattening unchanged provided its
flattened column name does not contain `"location"`, is not in
`dropColumns`, and does not coincide with the derived `x`/`y` name of any
location column.  (The counterexample shows `location`-named scalar fields
are silently dropped, so the first exclusion is necessary; the derived-name
exclusion guards against split assignments overwriting the column.) -/
theorem C8_leaf_preservation (events : List RawEvent) (d : List String) (n : Nat) (e : RawEvent)
    (t : Table) (k : String) (v : Json)
    (hn : events.get? n = some e) (hflat : flatten events d = some t)
    (hkv : (k, v) ∈ renamedRec e) (hloc : hasLoc k = false) (hd : k ∉ d)
    (hno : ∀ c ∈ (normTable events).cols, hasLoc c = true →
      dimName c "x" ≠ k ∧ dimName c "y" ≠ k) :
    ∃ row, t.rows.get? n = some row ∧ (k, v) ∈ t.cols.zip row := by
  obtain ⟨t2, hr, ht⟩ := flatten_some events d t hflat
  obtain ⟨pr, hpr, hpe⟩ := List.mem_map.mp hkv
  rw [Prod.mk.injEq] at hpe
  have hk0 : renameKey pr.1 = k := hpe.1
  have hv0 : pr.2 = v := hpe.2
  have hk0uc : pr.1 ∈ unionCols events := (mem_unionCols events pr.1).mpr
    ⟨e, List.get?_mem hn, List.mem_map.mpr ⟨pr, hpr, rfl⟩⟩
  have hspec := idxOfS_spec pr.1 (unionCols events) hk0uc
  have hcols1 : (normTable events).cols.get? (idxOfS pr.1 (unionCols events)) = some k := by
    rw [normTable_cols, List.get?_map, hspec.1]
    show some (renameKey pr.1) = some k
    rw [hk0]
  have hrow1 := normTable_rows_get events n e hn
  have hval1 : ((unionCols events).map (fun c => getVal (canonRec e) c)).get?
      (idxOfS pr.1 (unionCols events)) = some v := by
    rw [List.get?_map, hspec.1]
    show some (getVal (canonRec e) pr.1) = some v
    have hpr2 : (pr.1, pr.2) ∈ canonRec e := by
      rw [Prod.mk.eta]
      exact hpr
    rw [getVal_mem_of_nodup (canonRec e) (nodup_canonRec e) pr.1 pr.2 hpr2, hv0]
  have hnoloc : ∀ c2 ∈ locColsOf (normTable events),
      dimName c2 "x" ≠ k ∧ dimName c2 "y" ≠ k := by
    intro c2 hc2
    obtain ⟨hm2, hl2⟩ := (mem_locColsOf _ c2).mp hc2
    exact hno c2 hm2 hl2
  obtain ⟨hcols2, hrows2⟩ := runSplits_preserve _ _ _ (normTable_wf events) hr
    (idxOfS pr.1 (unionCols events)) k hcols1 hnoloc
  obtain ⟨row2, hrow2, hvrow2⟩ := hrows2 n _ hrow1
  have hval2 : row2.get? (idxOfS pr.1 (unionCols events)) = some v := by
    rw [hvrow2, hval1]
  have hzip2 : (k, v) ∈ t2.cols.zip row2 :=
    List.get?_mem (get?_zip_some _ _ _ k v hcols2 hval2)
  have hwf2 : Wf t2 := runSplits_wf _ _ _ (normTable_wf events) hr
  have hlen2 : row2.length = t2.cols.length := hwf2 row2 (List.get?_mem hrow2)
  have hp1 : (fun c => !((locColsOf (normTable events)).contains c)) k = true := by
    refine (notContains_iff _ _).mpr (fun hm => ?_)
    have h2 := ((mem_locColsOf _ _).mp hm).2
    rw [hloc] at h2
    cases h2
  obtain ⟨row3, hrow3, hzip3⟩ := keep_zip_mem t2
    (fun c => !((locColsOf (normTable events)).contains c)) n row2 hrow2 hlen2 k v hzip2 hp1
  have hwf3 : Wf (keepCols t2 (fun c => !((locColsOf (normTable events)).contains c))) :=
    keepCols_wf t2 _ hwf2
  have hlen3 : row3.length =
      (keepCols t2 (fun c => !((locColsOf (normTable events)).contains c))).cols.length :=
    hwf3 row3 (List.get?_mem hrow3)
  have hp2 : (fun c => !(d.contains c)) k = true := (notContains_iff _ _).mpr hd
  obtain ⟨row4, hrow4, hzip4⟩ := keep_zip_mem
    (keepCols t2 (fun c => !((locColsOf (normTable events)).contains c)))
    (fun c => !(d.contains c)) n row3 hrow3 hlen3 k v hzip3 hp2
  rw [ht]
  exact ⟨row4, hrow4, hzip4⟩

/-- C8 witness: the scalar leaf `type_name = "Pass"` survives to the output. -/
theorem C8_leaf_preservation_witness :
    flatten [passEvent] [] =
      some { cols := ["type_name", "pass_end_x", "pass_end_y"], rows := [[Json.str "Pass", Json.num 10, Json.num 20]] } ∧
    (∃ row, ({ cols := ["type_name", "pass_end_x", "pass_end_y"], rows := [[Json.str "Pass", Json.num 10, Json.num 20]] } : Table).rows.get? 0 = some row ∧
      ("type_name", Json.str "Pass") ∈
        ({ cols := ["type_name", "pass_end_x", "pass_end_y"], rows := [[Json.str "Pass", Json.num 10, Json.num 20]] } : Table).cols.zip row) :=
  ⟨rfl, C8_leaf_preservation [passEvent] [] 0 passEvent _ "type_name" (Json.str "Pass")
    rfl rfl
    (by
      show ("type_name", Json.str "Pass") ∈
        [("type_name", Json.str "Pass"),
         ("pass_end_location", Json.arr [Json.num 10, Json.num 20])]
      exact List.mem_cons_self _ _)
    rfl (by decide) (by decide)⟩

theorem lambdaVal_scalar (d : List String) (t : Table) (col : String) (i : Nat)
    (hwf : Wf t) (hloccol : hasLoc col = true) (hi : i = 0 ∨ i = 1)
    (hinv : ScalarInv d t) (nn : Nat) (row : List Json) (b : Json)
    (hrow : t.rows.get? nn = some row) (hfb : lambdaVal t.cols row col i = some b) :
    ScalarOK b = true := by
  have h01 : t.cols.count col = 0 ∨ t.cols.count col = 1 ∨ 2 ≤ t.cols.count col := by omega
  rcases h01 with hc0 | hc1 | hc2
  · have hl : lambdaVal t.cols row col i = none := by rw [lambdaVal, hc0]
    rw [hl] at hfb
    cases hfb
  · cases hrv : rowVal t.cols row col with
    | arr xs =>
      have hl : lambdaVal t.cols row col i = xs.get? i := by rw [lambdaVal, hc1, hrv]
      rw [hl] at hfb
      have hcm : col ∈ t.cols := List.count_pos_iff.mp (by omega)
      have hspec := idxOfS_spec col t.cols hcm
      have hlen : row.length = t.cols.length := hwf row (List.get?_mem hrow)
      have hpos := rowVal_pos col t.cols row hlen hcm
      rw [hrv] at hpos
      have hinvc := hinv (idxOfS col t.cols) col nn row (Json.arr xs) hspec.1 hrow hpos
      obtain ⟨hs0, hs1⟩ := hinvc.2 hloccol xs rfl
      have hgd : xs.getD i Json.null = b := by
        rw [List.getD_eq_get?, hfb]
        rfl
      rcases hi with rfl | rfl
      · rw [← hgd]; exact hs0
      · rw [← hgd]; exact hs1
    | null =>
      have hl : lambdaVal t.cols row col i = some Json.null := by rw [lambdaVal, hc1, hrv]
      rw [hl] at hfb
      rw [← Option.some.inj hfb]
      rfl
    | bool b2 =>
      have hl : lambdaVal t.cols row col i = some Json.null := by rw [lambdaVal, hc1, hrv]
      rw [hl] at hfb
      rw [← Option.some.inj hfb]
      rfl
    | num m =>
      have hl : lambdaVal t.cols row col i = some Json.null := by rw [lambdaVal, hc1, hrv]
      rw [hl] at hfb
      rw [← Option.some.inj hfb]
      rfl
    | str s =>
      have hl : lambdaVal t.cols row col i = some Json.null := by rw [lambdaVal, hc1, hrv]
      rw [hl] at hfb
      rw [← Option.some.inj hfb]
      rfl
    | obj fs =>
      have hl : lambdaVal t.cols row col i = some Json.null := by rw [lambdaVal, hc1, hrv]
      rw [hl] at hfb
      rw [← Option.some.inj hfb]
      rfl
  · obtain ⟨m, hm2⟩ : ∃ m, t.cols.count col = m + 2 := ⟨t.cols.count col - 2, by omega⟩
    have hl : lambdaVal t.cols row col i = some Json.null := by rw [lambdaVal, hm2]
    rw [hl] at hfb
    rw [← Option.some.inj hfb]
    rfl

theorem applyDim_scalar (d : List String) (t : Table) (col dim : String) (i : Nat) (t2 : Table)
    (hwf : Wf t) (h : applyDim t col dim i = some t2)
    (hloccol : hasLoc col = true) (hdim : dim = "x" ∨ dim = "y") (hi : i = 0 ∨ i = 1)
    (hinv : ScalarInv d t) : ScalarInv d t2 := by
  obtain ⟨vals, hm, rfl⟩ := applyDim_some t col dim i t2 h
  have hwloc : hasLoc (dimName col dim) = false := hasLoc_dimName col hloccol dim hdim
  intro j k nn row v hj hrow hv
  have hvals_scalar : ∀ nn2 row2 v2, t.rows.get? nn2 = some row2 → vals.get? nn2 = some v2 →
      ScalarOK v2 = true := by
    intro nn2 row2 v2 hrow2 hv2
    obtain ⟨b, hfb, hvb⟩ := mapO_get _ _ _ hm nn2 row2 hrow2
    have hbv : b = v2 := by
      rw [hvb] at hv2
      exact Option.some.inj hv2
    subst hbv
    exact lambdaVal_scalar d t col i hwf hloccol hi hinv nn2 row2 b hrow2 hfb
  by_cases hwmem : dimName col dim ∈ t.cols
  · have hcols2 : (setCol t (dimName col dim) vals).cols = t.cols := by
      rw [setCol_cols, if_pos hwmem]
    rw [hcols2] at hj
    have hrow2 : (setCol t (dimName col dim) vals).rows.get? nn =
        ((t.rows.zip vals).get? nn).map
          (fun rv => rv.1.set (idxOfS (dimName col dim) t.cols) rv.2) := by
      rw [setCol, if_pos hwmem]
      exact List.get?_map _ _ _
    rw [hrow2] at hrow
    cases hz : (t.rows.zip vals).get? nn with
    | none => rw [hz] at hrow; cases hrow
    | some rv =>
      rw [hz] at hrow
      have hrowe : rv.1.set (idxOfS (dimName col dim) t.cols) rv.2 = row :=
        Option.some.inj hrow
      obtain ⟨hr1, hr2⟩ := get?_zip_inv t.rows vals nn rv.1 rv.2
        (by rw [hz, Prod.mk.eta])
      by_cases hji : j = idxOfS (dimName col dim) t.cols
      · subst hji
        have hspec := idxOfS_spec (dimName col dim) t.cols hwmem
        have hkw : k = dimName col dim := by
          rw [hspec.1] at hj
          exact (Option.some.inj hj).symm
        have hlen1 : rv.1.length = t.cols.length := hwf rv.1 (List.get?_mem hr1)
        have hvset : row.get? (idxOfS (dimName col dim) t.cols) = some rv.2 := by
          rw [← hrowe, List.get?_set_eq, List.get?_eq_get (by omega)]
          rfl
        have hvv : v = rv.2 := by
          rw [hvset] at hv
          exact (Option.some.inj hv).symm
        constructor
        · intro _
          refine Or.inr ?_
          rw [hvv]
          exact hvals_scalar nn rv.1 rv.2 hr1 hr2
        · intro hlk
          rw [hkw, hwloc] at hlk
          cases hlk
      · have hget : row.get? j = rv.1.get? j := by
          rw [← hrowe]
          exact List.get?_set_ne rv.2 rv.1 (fun he => hji he.symm)
        rw [hget] at hv
        exact hinv j k nn rv.1 v hj hr1 hv
  · have hcols2 : (setCol t (dimName col dim) vals).cols = t.cols ++ [dimName col dim] := by
      rw [setCol_cols, if_neg hwmem]
    have hrow2 : (setCol t (dimName col dim) vals).rows.get? nn =
        ((t.rows.zip vals).get? nn).map (fun rv => rv.1 ++ [rv.2]) := by
      rw [setCol, if_neg hwmem]
      exact List.get?_map _ _ _
    rw [hcols2] at hj
    rw [hrow2] at hrow
    cases hz : (t.rows.zip vals).get? nn with
    | none => rw [hz] at hrow; cases hrow
    | some rv =>
      rw [hz] at hrow
      have hrowe : rv.1 ++ [rv.2] = row := Option.some.inj hrow
      obtain ⟨hr1, hr2⟩ := get?_zip_inv t.rows vals nn rv.1 rv.2
        (by rw [hz, Prod.mk.eta])
      have hlen1 : rv.1.length = t.cols.length := hwf rv.1 (List.get?_mem hr1)
      by_cases hjlt : j < t.cols.length
      · have hj2 : t.cols.get? j = some k := by
          rw [← List.get?_append hjlt]
          exact hj
        have hget : row.get? j = rv.1.get? j := by
          rw [← hrowe]
          exact List.get?_append (by omega)
        rw [hget] at hv
        exact hinv j k nn rv.1 v hj2 hr1 hv
      · have hjle : j ≤ t.cols.length := by
          by_contra hgt
          have : (t.cols ++ [dimName col dim]).get? j = none := by
            rw [List.get?_eq_none]
            simp only [List.length_append, List.length_cons, List.length_nil]
            omega
          rw [this] at hj
          cases hj
        have hje : j = t.cols.length := by omega
        subst hje
        have hkw : k = dimName col dim := by
          rw [List.get?_concat_length] at hj
          exact (Option.some.inj hj).symm
        have hvset : row.get? t.cols.length = some rv.2 := by
          rw [← hrowe, ← hlen1]
          exact List.get?_concat_length rv.1 rv.2
        have hvv : v = rv.2 := by
          rw [hvset] at hv
          exact (Option.some.inj hv).symm
        constructor
        · intro _
          refine Or.inr ?_
          rw [hvv]
          exact hvals_scalar nn rv.1 rv.2 hr1 hr2
        · intro hlk
          rw [hkw, hwloc] at hlk
          cases hlk

theorem splitCol_scalar (d : List String) (t : Table) (c : String) (t2 : Table)
    (hwf : Wf t) (h : splitCol t c = some t2) (hloc : hasLoc c = true)
    (hinv : ScalarInv d t) : ScalarInv d t2 := by
  obtain ⟨tx, hx, hy⟩ := splitCol_some t c t2 h
  have hinvx := applyDim_scalar d t c "x" 0 tx hwf hx hloc (Or.inl rfl) (Or.inl rfl) hinv
  exact applyDim_scalar d tx c "y" 1 t2 (applyDim_wf t c "x" 0 tx hwf hx) hy hloc
    (Or.inr rfl) (Or.inr rfl) hinvx

theorem runSplits_scalar (d : List String) (cs : List String) :
    ∀ (t t2 : Table), Wf t → (∀ c ∈ cs, hasLoc c = true) →
      runSplits t cs = some t2 → ScalarInv d t → ScalarInv d t2 := by
  induction cs with
  | nil =>
    intro t t2 _ _ h hinv
    cases Option.some.inj h
    exact hinv
  | cons c cs ih =>
    intro t t2 hwf hall h hinv
    obtain ⟨tm, hm, hrest⟩ := runSplits_cons t c cs t2 h
    exact ih tm t2 (splitCol_wf t c tm hwf hm)
      (fun c2 hc2 => hall c2 (List.mem_cons_of_mem c hc2)) hrest
      (splitCol_scalar d t c tm hwf hm (hall c (List.mem_cons_self c cs)) hinv)

theorem normTable_scalar (events : List RawEvent) (d : List String)
    (H : ∀ e ∈ events, ∀ p ∈ renamedRec e,
      (hasLoc p.1 = false → p.1 ∈ d ∨ ScalarOK p.2 = true) ∧
      (hasLoc p.1 = true → ∀ xs, p.2 = Json.arr xs →
        ScalarOK (xs.getD 0 Json.null) = true ∧ ScalarOK (xs.getD 1 Json.null) = true)) :
    ScalarInv d (normTable events) := by
  intro j k nn row v hj hrow hv
  rw [normTable_cols, List.get?_map] at hj
  cases hc : (unionCols events).get? j with
  | none =>
    rw [hc] at hj
    cases hj
  | some c =>
    rw [hc] at hj
    have hk : k = renameKey c := (Option.some.inj hj).symm
    have hrow0 : (events.map
        (fun e => (unionCols events).map (fun c => getVal (canonRec e) c))).get? nn =
        some row := hrow
    rw [List.get?_map] at hrow0
    cases he : events.get? nn with
    | none =>
      rw [he] at hrow0
      cases hrow0
    | some e =>
      rw [he] at hrow0
      have hrowe : row = (unionCols events).map (fun c => getVal (canonRec e) c) :=
        (Option.some.inj hrow0).symm
      have hvv : v = getVal (canonRec e) c := by
        rw [hrowe, List.get?_map, hc] at hv
        exact (Option.some.inj hv).symm
      rcases getVal_mem_or_null (canonRec e) c with hmem | hnull
      · have hmem2 : (renameKey c, getVal (canonRec e) c) ∈ renamedRec e := by
          rw [renamedRec]
          exact List.mem_map.mpr ⟨(c, getVal (canonRec e) c), hmem, rfl⟩
        have hH := H e (List.get?_mem he) _ hmem2
        rw [hk, hvv]
        exact hH
      · rw [hvv, hnull]
        constructor
        · intro _
          exact Or.inr rfl
        · intro _ xs hxs
          cases hxs

theorem keepCols_cell_src (t : Table) (p : String → Bool) (hwf : Wf t)
    (j : Nat) (k : String) (nn : Nat) (row : List Json) (v : Json)
    (hj : (keepCols t p).cols.get? j = some k)
    (hrow : (keepCols t p).rows.get? nn = some row)
    (hv : row.get? j = some v) :
    ∃ (j0 : Nat) (row0 : List Json),
      t.cols.get? j0 = some k ∧ t.rows.get? nn = some row0 ∧ row0.get? j0 = some v ∧
      p k = true := by
  have hrow1 : (t.rows.map
      (fun r => ((t.cols.zip r).filter (fun cv => p cv.1)).map Prod.snd)).get? nn =
      some row := hrow
  rw [List.get?_map] at hrow1
  cases hr0 : t.rows.get? nn with
  | none =>
    rw [hr0] at hrow1
    cases hrow1
  | some row0 =>
    rw [hr0] at hrow1
    have hre : row = ((t.cols.zip row0).filter (fun cv => p cv.1)).map Prod.snd :=
      (Option.some.inj hrow1).symm
    have hlen0 : row0.length = t.cols.length := hwf row0 (List.get?_mem hr0)
    have hjk : ((t.cols.zip row0).filter (fun cv => p cv.1)).map Prod.fst =
        t.cols.filter p := filter_zip_map_fst p t.cols row0 hlen0
    have hj1 : (((t.cols.zip row0).filter (fun cv => p cv.1)).map Prod.fst).get? j =
        some k := by
      rw [hjk]
      exact hj
    rw [List.get?_map] at hj1
    rw [hre, List.get?_map] at hv
    cases hzg : ((t.cols.zip row0).filter (fun cv => p cv.1)).get? j with
    | none =>
      rw [hzg] at hj1
      cases hj1
    | some pr =>
      rw [hzg] at hj1
      rw [hzg] at hv
      have hk : pr.1 = k := Option.some.inj hj1
      have hvp : pr.2 = v := Option.some.inj hv
      have hprm : pr ∈ (t.cols.zip row0).filter (fun cv => p cv.1) := List.get?_mem hzg
      obtain ⟨hzmem, hpk⟩ := List.mem_filter.mp hprm
      obtain ⟨j0, hj0⟩ := List.get?_of_mem hzmem
      obtain ⟨hc0, hv0⟩ := get?_zip_inv t.cols row0 j0 pr.1 pr.2
        (by rw [hj0, Prod.mk.eta])
      refine ⟨j0, row0, ?_, rfl, ?_, ?_⟩
      · rw [← hk]
        exact hc0
      · rw [← hvp]
        exact hv0
      · rw [← hk]
        exact hpk

/-- C3 (amended): every value in every row of the flattened output table is a
scalar, provided every field of every flattened-and-renamed input record is
either scalar, named in the drop list, or a `location`-named array whose
entries at indices 0 and 1 are scalar.  Without that proviso the claim is
false: `C3_counterexample` shows a non-location array-valued field surviving
to the output intact. -/
theorem C3_scalar_only (events : List RawEvent) (d : List String) (t : Table)
    (h : flatten events d = some t)
    (H : ∀ e ∈ events, ∀ p ∈ renamedRec e,
      (hasLoc p.1 = false → p.1 ∈ d ∨ ScalarOK p.2 = true) ∧
      (hasLoc p.1 = true → ∀ xs, p.2 = Json.arr xs →
        ScalarOK (xs.getD 0 Json.null) = true ∧ ScalarOK (xs.getD 1 Json.null) = true)) :
    ∀ row ∈ t.rows, ∀ v ∈ row, ScalarOK v = true := by
  obtain ⟨t2, hrs, hte⟩ := flatten_some events d t h
  have hwf2 : Wf t2 := runSplits_wf _ _ _ (normTable_wf events) hrs
  have hwfm : Wf (keepCols t2 (fun c => !((locColsOf (normTable events)).contains c))) :=
    keepCols_wf _ _ hwf2
  have hinv2 : ScalarInv d t2 :=
    runSplits_scalar d (locColsOf (normTable events)) (normTable events) t2
      (normTable_wf events) (fun c hc => ((mem_locColsOf _ c).mp hc).2) hrs
      (normTable_scalar events d H)
  subst hte
  intro row hrow v hv
  obtain ⟨nn, hnn⟩ := List.get?_of_mem hrow
  obtain ⟨j, hjv⟩ := List.get?_of_mem hv
  have hwff : Wf (keepCols
      (keepCols t2 (fun c => !((locColsOf (normTable events)).contains c)))
      (fun c => !(d.contains c))) := keepCols_wf _ _ hwfm
  have hlen : row.length = (keepCols
      (keepCols t2 (fun c => !((locColsOf (normTable events)).contains c)))
      (fun c => !(d.contains c))).cols.length := hwff row hrow
  have hjlt : j < row.length := by
    by_contra hge
    rw [List.get?_eq_none.mpr (by omega)] at hjv
    cases hjv
  cases hk : (keepCols
      (keepCols t2 (fun c => !((locColsOf (normTable events)).contains c)))
      (fun c => !(d.contains c))).cols.get? j with
  | none =>
    rw [List.get?_eq_none] at hk
    omega
  | some k =>
    obtain ⟨j1, row1, hc1, hr1, hv1, hp2k⟩ :=
      keepCols_cell_src
        (keepCols t2 (fun c => !((locColsOf (normTable events)).contains c)))
        (fun c => !(d.contains c)) hwfm j k nn row v hk hnn hjv
    obtain ⟨j0, row0, hc0, hr0, hv0, hp1k⟩ :=
      keepCols_cell_src t2 (fun c => !((locColsOf (normTable events)).contains c))
        hwf2 j1 k nn row1 v hc1 hr1 hv1
    have hcell := hinv2 j0 k nn row0 v hc0 hr0 hv0
    by_cases hlk : hasLoc k = true
    · exact absurd (List.get?_mem hk) (flatten_no_loc_cols events d _ h k hlk)
    · rcases hcell.1 (Bool.eq_false_iff.mpr hlk) with hkd | hok
      · exact absurd hkd ((notContains_iff d k).mp hp2k)
      · exact hok

/-- C3 witness: the amended claim applied to the single clean pass event with
an empty drop list, evaluated at the first cell of the only output row. -/
theorem C3_scalar_only_witness :
    ScalarOK (Json.str "Pass") = true :=
  C3_scalar_only [passEvent] []
    (Table.mk ["type_name", "pass_end_x", "pass_end_y"]
      [[Json.str "Pass", Json.num 10, Json.num 20]])
    rfl
    (by
      intro e he p hp
      rw [List.mem_singleton] at he
      subst he
      have hre : renamedRec passEvent =
          [("type_name", Json.str "Pass"),
           ("pass_end_location", Json.arr [Json.num 10, Json.num 20])] := rfl
      rw [hre] at hp
      rcases List.mem_cons.mp hp with h1 | h2
      · subst h1
        constructor
        · intro _
          exact Or.inr rfl
        · intro hl
          cases hl
      · have h3 := List.mem_singleton.mp h2
        subst h3
        constructor
        · intro hl
          cases hl
        · intro _ xs hxs
          injection hxs with hx
          subst hx
          exact ⟨rfl, rfl⟩)
    [Json.str "Pass", Json.num 10, Json.num 20]
    (List.mem_cons_self _ _)
    (Json.str "Pass")
    (List.mem_cons_self _ _)
